import Mathlib

/-!
Verification development for the tensor subscription module
(tensorflow/python/framework/subscribe.py).

The module performs graph surgery: it splices a pass-through identity node
between a producer tensor and all of its existing consumers, gated by
side-effect control dependencies.  We embed the data model (graph, op,
tensor), the recursive structure traversal, the control-output reverse
index cache and the splicing algorithm, and prove the documented
properties about them.
-/

set_option autoImplicit false

namespace Subscribe

/-- A graph-value handle: one output slot of an op.  The owning op is
identified by a numeric id, the slot by an index.  Modelled from the spec:
the graph data structure itself is an external collaborator; handles are
compared by identity, which the pair of ids captures. -/
structure Tensor where
  op : Nat
  idx : Nat
deriving DecidableEq, Repr

/-- A graph node: ordered data inputs, ordered list of control inputs
(ids of the ops that must run first), and a version counter standing for
the serialized node definition, bumped by recompute_node_def.  Modelled
from the spec: the node type lives in the framework, outside this module;
only the fields this module reads or mutates are represented. -/
structure Op where
  id : Nat
  inputs : List Tensor
  control_inputs : List Nat
  nodeDefVersion : Nat
deriving DecidableEq, Repr

/-- A graph: an identity (for cache keying), the list of ops in creation
order, and the next fresh op id.  Modelled from the spec: the graph is an
external collaborator owning the nodes. -/
structure Graph where
  gid : Nat
  ops : List Op
  nextId : Nat
deriving DecidableEq, Repr

/-- Look an op up by id (first match, as ids are unique in a well-formed
graph). -/
def getOp (g : Graph) (i : Nat) : Option Op :=
  g.ops.find? (fun op => op.id = i)

/-- Well-formedness of a graph: op ids are distinct and below nextId, and
every data input and control input refers to an op below nextId. -/
def graphWF (g : Graph) : Bool :=
  (g.ops.map (fun op => op.id)).Nodup
    && g.ops.all (fun op =>
         op.id < g.nextId
           && op.inputs.all (fun t => t.op < g.nextId)
           && op.control_inputs.all (fun c => c < g.nextId))

/-- The nested fetch-like structure accepted by recursive_apply.  The
constructors are the Python runtime type tags the source dispatches on:
an exact ops.Tensor, a strict subclass of ops.Tensor (whose exact type
check fails), a list, a tuple, a namedtuple (carrying its type name),
a dict with string keys, or any other Python value (carrying its repr
and type name). -/
inductive TStruct where
  | tensor (t : Tensor)
  | tensorSub (t : Tensor)
  | list (xs : List TStruct)
  | tuple (xs : List TStruct)
  | namedtuple (tyName : String) (xs : List TStruct)
  | dict (kvs : List (String × TStruct))
  | pyOther (valueRepr : String) (tyName : String)

/-- The error raised by the traversal: the TypeError of the source, whose
message names the offending value and its observed type. -/
inductive TFError where
  | typeError (valueRepr : String) (tyName : String)
deriving DecidableEq, Repr

/-- Printable form of a tensor handle, used in error payloads. -/
def tensorRepr (t : Tensor) : String :=
  "Tensor(" ++ toString t.op ++ ", " ++ toString t.idx ++ ")"

/-- Type name reported for a strict subclass of the tensor type. -/
def tensorSubclassName : String := "TensorSubclass"

mutual
/-- Embedding of recursive_apply: dispatch on the exact runtime type.
An exact tensor is transformed (the transform threads a state, standing
for the mutable graph and cache); lists, tuples and namedtuples are
rebuilt from recursively mapped elements with the same concrete kind;
dicts are rebuilt value-wise preserving keys; anything else raises
TypeError naming the value and its type. -/
def recursive_apply {σ : Type} (f : Tensor → σ → Tensor × σ) :
    TStruct → σ → Except TFError (TStruct × σ)
  | .tensor t, s =>
    let r := f t s
    .ok (.tensor r.1, r.2)
  | .list xs, s => do
    let r ← recursive_applyList f xs s
    pure (.list r.1, r.2)
  | .tuple xs, s => do
    let r ← recursive_applyList f xs s
    pure (.tuple r.1, r.2)
  | .namedtuple n xs, s => do
    let r ← recursive_applyList f xs s
    pure (.namedtuple n r.1, r.2)
  | .dict kvs, s => do
    let r ← recursive_applyDict f kvs s
    pure (.dict r.1, r.2)
  | .tensorSub t, _ => .error (.typeError (tensorRepr t) tensorSubclassName)
  | .pyOther v ty, _ => .error (.typeError v ty)

/-- Element-wise traversal of a list comprehension, left to right,
aborting on the first error. -/
def recursive_applyList {σ : Type} (f : Tensor → σ → Tensor × σ) :
    List TStruct → σ → Except TFError (List TStruct × σ)
  | [], s => .ok ([], s)
  | x :: xs, s => do
    let r1 ← recursive_apply f x s
    let r2 ← recursive_applyList f xs r1.2
    pure (r1.1 :: r2.1, r2.2)

/-- Value-wise traversal of a dict, preserving keys. -/
def recursive_applyDict {σ : Type} (f : Tensor → σ → Tensor × σ) :
    List (String × TStruct) → σ → Except TFError (List (String × TStruct) × σ)
  | [], s => .ok ([], s)
  | (k, v) :: kvs, s => do
    let r1 ← recursive_apply f v s
    let r2 ← recursive_applyDict f kvs r1.2
    pure ((k, r1.1) :: r2.1, r2.2)
end

mutual
/-- The shape of a structure: the container skeleton with leaves erased.
Container kind, length, ordering, namedtuple type name and dict keys are
all part of the shape. -/
def shapeOf : TStruct → TStruct
  | .tensor _ => .tensor ⟨0, 0⟩
  | .tensorSub _ => .tensorSub ⟨0, 0⟩
  | .list xs => .list (shapeOfList xs)
  | .tuple xs => .tuple (shapeOfList xs)
  | .namedtuple n xs => .namedtuple n (shapeOfList xs)
  | .dict kvs => .dict (shapeOfDict kvs)
  | .pyOther v ty => .pyOther v ty

def shapeOfList : List TStruct → List TStruct
  | [] => []
  | x :: xs => shapeOf x :: shapeOfList xs

def shapeOfDict : List (String × TStruct) → List (String × TStruct)
  | [] => []
  | (k, v) :: kvs => (k, shapeOf v) :: shapeOfDict kvs
end

mutual
/-- The exact-type tensor leaves of a structure, in traversal order. -/
def leavesOf : TStruct → List Tensor
  | .tensor t => [t]
  | .tensorSub _ => []
  | .list xs => leavesOfList xs
  | .tuple xs => leavesOfList xs
  | .namedtuple _ xs => leavesOfList xs
  | .dict kvs => leavesOfDict kvs
  | .pyOther _ _ => []

def leavesOfList : List TStruct → List Tensor
  | [] => []
  | x :: xs => leavesOf x ++ leavesOfList xs

def leavesOfDict : List (String × TStruct) → List Tensor
  | [] => []
  | (_, v) :: kvs => leavesOf v ++ leavesOfDict kvs
end

/-- Stateful map over a list of leaves, threading the state left to
right: the reference semantics of applying the transform to every leaf
in traversal order. -/
def mapAccumLeaves {σ : Type} (f : Tensor → σ → Tensor × σ) :
    List Tensor → σ → List Tensor × σ
  | [], s => ([], s)
  | t :: ts, s =>
    let r1 := f t s
    let r2 := mapAccumLeaves f ts r1.2
    (r1.1 :: r2.1, r2.2)

mutual
/-- Whether the structure contains a value of unsupported type: a strict
subclass of the tensor type, or any value that is not a tensor, list,
tuple, namedtuple or dict. -/
def hasBadLeaf : TStruct → Bool
  | .tensor _ => false
  | .tensorSub _ => true
  | .list xs => hasBadLeafList xs
  | .tuple xs => hasBadLeafList xs
  | .namedtuple _ xs => hasBadLeafList xs
  | .dict kvs => hasBadLeafDict kvs
  | .pyOther _ _ => true

def hasBadLeafList : List TStruct → Bool
  | [] => false
  | x :: xs => hasBadLeaf x || hasBadLeafList xs

def hasBadLeafDict : List (String × TStruct) → Bool
  | [] => false
  | (_, v) :: kvs => hasBadLeaf v || hasBadLeafDict kvs
end

mutual
/-- The (repr, type name) payloads of every unsupported value in the
structure, in traversal order. -/
def badLeaves : TStruct → List (String × String)
  | .tensor _ => []
  | .tensorSub t => [(tensorRepr t, tensorSubclassName)]
  | .list xs => badLeavesList xs
  | .tuple xs => badLeavesList xs
  | .namedtuple _ xs => badLeavesList xs
  | .dict kvs => badLeavesDict kvs
  | .pyOther v ty => [(v, ty)]

def badLeavesList : List TStruct → List (String × String)
  | [] => []
  | x :: xs => badLeaves x ++ badLeavesList xs

def badLeavesDict : List (String × TStruct) → List (String × String)
  | [] => []
  | (_, v) :: kvs => badLeaves v ++ badLeavesDict kvs
end

/-! ## Control-output reverse index cache -/

/-- The reverse index for one graph: op id to the ids of the ops that
declare it as a control input.  A Python dict of sets is modelled as an
association list whose value lists are duplicate-free. -/
abbrev ControlOutputs : Type := List (Nat × List Nat)

/-- Association-list lookup, mirroring Python dict lookup. -/
def lookupAssoc {α : Type} (m : List (Nat × α)) (k : Nat) : Option α :=
  (m.find? (fun p => p.1 = k)).map (fun p => p.2)

/-- Insert a value into the set stored under a key, creating the entry
when absent; mirrors the dict-of-sets update in calc_control_outputs. -/
def addToMultimap (m : ControlOutputs) (key val : Nat) : ControlOutputs :=
  match m with
  | [] => [(key, [val])]
  | (k, vs) :: rest =>
    if k = key then (k, if val ∈ vs then vs else vs ++ [val]) :: rest
    else (k, vs) :: addToMultimap rest key val

/-- Embedding of ControlOutputCache.calc_control_outputs: one linear
scan over the ops of the graph, inverting each control-input edge into
the map. -/
def calc_control_outputs (g : Graph) : ControlOutputs :=
  g.ops.foldl
    (fun m op => op.control_inputs.foldl (fun m c => addToMultimap m c op.id) m)
    []

/-- The cache of ControlOutputCache: graph identity to computed reverse
index. -/
abbrev Cache : Type := List (Nat × ControlOutputs)

/-- Embedding of ControlOutputCache.get_control_outputs: on a miss for
the graph of the op, compute the reverse index for that graph and store
it; on a hit reuse the stored index; then answer from the index with an
empty default.  Returns the answer and the updated cache. -/
def get_control_outputs (c : Cache) (g : Graph) (opId : Nat) :
    List Nat × Cache :=
  match lookupAssoc c g.gid with
  | none =>
    let co := calc_control_outputs g
    ((lookupAssoc co opId).getD [], (g.gid, co) :: c)
  | some co => ((lookupAssoc co opId).getD [], c)

/-! ## Side-effect functions -/

/-- A data-input reference inside a side-effect op spec: either the
subscribed tensor itself or some already existing tensor. -/
inductive TensorRef where
  | sub
  | ext (t : Tensor)
deriving DecidableEq, Repr

/-- Resolve a reference against the subscribed tensor. -/
def TensorRef.resolve (t : Tensor) : TensorRef → Tensor
  | .sub => t
  | .ext u => u

/-- The spec of one op a side-effect function creates. -/
structure NewOpSpec where
  inputs : List TensorRef
  control_inputs : List Nat
deriving DecidableEq, Repr

/-- Modelled from the spec: a side-effect function is an opaque callable
that takes the subscribed tensor, constructs a side-effect subgraph, and
returns the created ops as control dependencies.  It is modelled as a
function from the tensor to the list of op specs it creates, in creation
order; applying it appends those ops to the graph with fresh consecutive
ids and returns their ids. -/
structure SideEffectFn where
  build : Tensor → List NewOpSpec

/-- Realize a list of op specs starting at a given fresh id: one op per
spec, consecutive ids, inputs resolved against the subscribed tensor. -/
def realizeOps (t : Tensor) (specs : List NewOpSpec) (start : Nat) : List Op :=
  match specs with
  | [] => []
  | sp :: sps =>
    ⟨start, sp.inputs.map (TensorRef.resolve t), sp.control_inputs, 0⟩
      :: realizeOps t sps (start + 1)

/-- Apply one side-effect function: append its ops to the graph and
return their ids. -/
def applySideEffect (f : SideEffectFn) (t : Tensor) (g : Graph) :
    List Nat × Graph :=
  (f.build t).foldl
    (fun r sp =>
      let g := r.2
      let op : Op := ⟨g.nextId, sp.inputs.map (TensorRef.resolve t),
                      sp.control_inputs, 0⟩
      (r.1 ++ [g.nextId], ⟨g.gid, g.ops ++ [op], g.nextId + 1⟩))
    ([], g)

/-- Embedding of the side-effect loop of the splicer: outs starts empty
and each function is invoked in the supplied order, its returned
dependencies appended. -/
def runSideEffects (ses : List SideEffectFn) (t : Tensor) (g : Graph) :
    List Nat × Graph :=
  ses.foldl
    (fun r s =>
      let a := applySideEffect s t r.2
      (r.1 ++ a.1, a.2))
    ([], g)

/-- All op specs the supplied side-effect functions create for a tensor,
in invocation order. -/
def flatSpecs (ses : List SideEffectFn) (t : Tensor) : List NewOpSpec :=
  (ses.map (fun s => s.build t)).flatten

/-! ## The splicer -/

/-- Modelled from the spec: the consumers of a handle are the nodes that
read it as one of their data inputs, listed in graph order, each node
once. -/
def consumersOf (g : Graph) (t : Tensor) : List Op :=
  g.ops.filter (fun op => t ∈ op.inputs)

/-- The snapshot the splicer takes before any mutation: one
(consumer id, input slot) pair per consumer, the slot being the first
index at which the consumer reads the tensor (Python list.index). -/
def snapshotOf (g : Graph) (t : Tensor) : List (Nat × Nat) :=
  (consumersOf g t).map (fun op => (op.id, op.inputs.indexOf t))

/-- Modelled from the spec: consumer update_input replaces the data
input of the given op at the given slot. -/
def updateInputAt (g : Graph) (cid slot : Nat) (nt : Tensor) : Graph :=
  ⟨g.gid,
   g.ops.map (fun op =>
     if op.id = cid then ⟨op.id, op.inputs.set slot nt, op.control_inputs,
                          op.nodeDefVersion⟩
     else op),
   g.nextId⟩

/-- Step 4 of the splicer: rewrite every snapshotted consumer input to
the pass-through tensor. -/
def applyUpdateInputs (g : Graph) (pairs : List (Nat × Nat)) (out : Tensor) :
    Graph :=
  pairs.foldl (fun g p => updateInputAt g p.1 p.2 out) g

/-- Step 5 of the splicer for one dependent: remove the first occurrence
of the original op from its control inputs (Python list.remove), append
the pass-through op, and regenerate the node definition (version bump).
Modelled from the spec: the list mutation and recompute_node_def are
framework operations. -/
def rewireControlAt (g : Graph) (did oldOp newOp : Nat) : Graph :=
  ⟨g.gid,
   g.ops.map (fun op =>
     if op.id = did then
       ⟨op.id, op.inputs, (op.control_inputs.erase oldOp) ++ [newOp],
        op.nodeDefVersion + 1⟩
     else op),
   g.nextId⟩

/-- Step 5 of the splicer over all reported control dependents. -/
def applyControlRewires (g : Graph) (deps : List Nat) (oldOp newOp : Nat) :
    Graph :=
  deps.foldl (fun g d => rewireControlAt g d oldOp newOp) g

/-- Embedding of the private splicer for a single tensor.  It snapshots
the (consumer, slot) pairs, queries the control-output index, builds the
side-effect subgraph, creates the pass-through identity op gated on the
collected dependencies, rewrites every snapshotted consumer input, and
rewires every reported control dependent.  Returns the pass-through
tensor, the updated cache and the mutated graph. -/
def subscribeOne (t : Tensor) (ses : List SideEffectFn) (c : Cache)
    (g : Graph) : Tensor × Cache × Graph :=
  let update_input := snapshotOf g t
  let q := get_control_outputs c g t.op
  let update_control_input := q.1
  let se := runSideEffects ses t g
  let outs := se.1
  let g1 := se.2
  let outOp : Op := ⟨g1.nextId, [t], outs, 0⟩
  let g2 : Graph := ⟨g1.gid, g1.ops ++ [outOp], g1.nextId + 1⟩
  let out : Tensor := ⟨outOp.id, 0⟩
  let g3 := applyUpdateInputs g2 update_input out
  let g4 := applyControlRewires g3 update_control_input t.op outOp.id
  (out, q.2, g4)

/-! ## The public entry point -/

/-- The side_effects argument of the public entry point: a single
side-effect function (no iterator protocol) or a sequence of them. -/
inductive SideEffectsArg where
  | single (f : SideEffectFn)
  | several (fs : List SideEffectFn)

/-- Embedding of the normalization at the top of subscribe: a value
without the iterator protocol is wrapped in a one-element list, a
sequence is used as supplied. -/
def normalizeSideEffects : SideEffectsArg → List SideEffectFn
  | .single f => [f]
  | .several fs => fs

/-- The per-leaf transform the public entry point applies: splice one
tensor, threading the shared cache and the mutated graph. -/
def subscribeLeaf (ses : List SideEffectFn) :
    Tensor → (Cache × Graph) → Tensor × (Cache × Graph) :=
  fun t st =>
    let r1 := subscribeOne t ses st.1 st.2
    (r1.1, r1.2.1, r1.2.2)

/-- Embedding of the public subscribe: normalize side_effects, create
one fresh control-output cache for the whole call, and apply the
splicer to every leaf of the structure. -/
def subscribe (tensors : TStruct) (side_effects : SideEffectsArg)
    (g : Graph) : Except TFError (TStruct × Cache × Graph) := do
  let ses := normalizeSideEffects side_effects
  let r ← recursive_apply (subscribeLeaf ses) tensors (([] : Cache), g)
  pure (r.1, r.2.1, r.2.2)

/-! ## Derived definitions used in the statements -/

/-- The input-slot modification applied to the op at one snapshot pair. -/
def setInputOp (op : Op) (slot : Nat) (nt : Tensor) : Op :=
  ⟨op.id, op.inputs.set slot nt, op.control_inputs, op.nodeDefVersion⟩

/-- The control modification applied to one dependent. -/
def rewireOp (op : Op) (oldOp newOp : Nat) : Op :=
  ⟨op.id, op.inputs, (op.control_inputs.erase oldOp) ++ [newOp],
   op.nodeDefVersion + 1⟩

/-- The number of ops the side-effect functions create for a tensor. -/
def spliceCount (ses : List SideEffectFn) (t : Tensor) : Nat :=
  (flatSpecs ses t).length

/-- The id the pass-through identity op receives. -/
def spliceOutId (g : Graph) (ses : List SideEffectFn) (t : Tensor) : Nat :=
  g.nextId + spliceCount ses t

/-- The pass-through tensor the splicer returns. -/
def spliceOut (g : Graph) (ses : List SideEffectFn) (t : Tensor) : Tensor :=
  ⟨spliceOutId g ses t, 0⟩

/-- The pass-through identity op as constructed: it consumes the original
tensor and is control-gated on every collected side-effect op. -/
def spliceIdOp (g : Graph) (ses : List SideEffectFn) (t : Tensor) : Op :=
  ⟨spliceOutId g ses t, [t], List.range' g.nextId (spliceCount ses t), 0⟩

/-- The graph after the side-effect subgraph and the identity op are
created, before any rewiring. -/
def spliceMidGraph (g : Graph) (ses : List SideEffectFn) (t : Tensor) :
    Graph :=
  ⟨g.gid, (g.ops ++ realizeOps t (flatSpecs ses t) g.nextId)
            ++ [spliceIdOp g ses t],
   spliceOutId g ses t + 1⟩

/-! ## Concrete fixtures used by witnesses and counterexamples -/

/-- A handle on the only output of op 0. -/
def exTensor : Tensor := ⟨0, 0⟩

/-- The producer op of the example graph. -/
def exProducer : Op := ⟨0, [], [], 0⟩

/-- A consumer that reads the example tensor at two input slots. -/
def exConsumer : Op := ⟨1, [⟨0, 0⟩, ⟨0, 0⟩], [], 0⟩

/-- An op that control-depends on the producer. -/
def exDependent : Op := ⟨2, [], [0], 0⟩

/-- A three-op example graph: producer, double consumer, dependent. -/
def exGraph : Graph := ⟨0, [exProducer, exConsumer, exDependent], 3⟩

/-- The same graph identity with one more dependent added afterwards:
used to exhibit the accepted staleness of the control-output cache. -/
def exGraph2 : Graph := ⟨0, [exProducer, exConsumer, exDependent,
                            ⟨3, [], [0], 0⟩], 4⟩

/-- A one-op graph holding only the producer. -/
def exGraph1 : Graph := ⟨0, [exProducer], 1⟩

/-- A side-effect function creating one op that reads the subscribed
tensor and returns it as the dependency. -/
def exSide : SideEffectFn := ⟨fun _ => [⟨[.sub], []⟩]⟩

/-- A structure containing a raw numeric literal, which is not a
supported structure kind. -/
def exBadStruct : TStruct := .list [.tensor ⟨0, 0⟩, .pyOther "3" "int"]

/-- The concrete output of subscribing a two-leaf structure over the
one-op graph with one side-effect function. -/
def exC1Result : TStruct × Cache × Graph :=
  (.list [.tensor ⟨2, 0⟩, .tuple [.tensor ⟨4, 0⟩]],
   [(0, [])],
   ⟨0, [⟨0, [], [], 0⟩,
        ⟨1, [⟨4, 0⟩], [], 0⟩,
        ⟨2, [⟨4, 0⟩], [1], 0⟩,
        ⟨3, [⟨0, 0⟩], [], 0⟩,
        ⟨4, [⟨0, 0⟩], [3], 0⟩], 5⟩)

/-! ## Lemmas: op lookup -/

theorem getOp_id {g : Graph} {i : Nat} {op : Op} (h : getOp g i = some op) :
    op.id = i := by
  unfold getOp at h
  have h2 := List.find?_some h
  simp only [decide_eq_true_eq] at h2
  exact h2

theorem getOp_mem {g : Graph} {i : Nat} {op : Op} (h : getOp g i = some op) :
    op ∈ g.ops :=
  List.mem_of_find?_eq_some h

theorem find?_id_of_mem_nodup {l : List Op} {op : Op}
    (hn : (l.map (fun o => o.id)).Nodup) (hm : op ∈ l) :
    l.find? (fun o => o.id = op.id) = some op := by
  induction l with
  | nil => simp at hm
  | cons a l ih =>
    simp only [List.map_cons, List.nodup_cons] at hn
    rcases List.mem_cons.mp hm with h | h
    · subst h
      exact List.find?_cons_of_pos _ (by simp)
    · have hne : a.id ≠ op.id := by
        intro he
        exact hn.1 (by rw [he]; exact List.mem_map_of_mem _ h)
      rw [List.find?_cons_of_neg _ (by simp [hne])]
      exact ih hn.2 h

theorem getOp_of_mem_nodup {g : Graph} {op : Op}
    (hn : (g.ops.map (fun op => op.id)).Nodup) (hm : op ∈ g.ops) :
    getOp g op.id = some op :=
  find?_id_of_mem_nodup hn hm

theorem getOp_eq_of_mem_nodup {g : Graph} {op op2 : Op}
    (hn : (g.ops.map (fun op => op.id)).Nodup) (hm : op ∈ g.ops)
    (hm2 : op2 ∈ g.ops) (hid : op2.id = op.id) : op2 = op := by
  have h1 := getOp_of_mem_nodup hn hm
  have h2 := getOp_of_mem_nodup hn hm2
  rw [hid] at h2
  rw [h1] at h2
  exact ((Option.some.injEq _ _).mp h2).symm

theorem getOp_append_left {g : Graph} {i : Nat} {op : Op} {l : List Op}
    {gid n : Nat} (h : getOp g i = some op) :
    getOp ⟨gid, g.ops ++ l, n⟩ i = some op := by
  unfold getOp at h ⊢
  simp only [List.find?_append, h, Option.or_some]

theorem getOp_append_right {g : Graph} {i : Nat} {l : List Op}
    {gid n : Nat} (h : ∀ op ∈ g.ops, op.id ≠ i) :
    getOp ⟨gid, g.ops ++ l, n⟩ i = l.find? (fun op => op.id = i) := by
  unfold getOp
  simp only [List.find?_append]
  have : g.ops.find? (fun op => op.id = i) = none :=
    List.find?_eq_none.mpr (by intro x hx; simpa using h x hx)
  simp [this]


theorem getOp_map_pres {ops : List Op} {gid n i : Nat} (h : Op → Op)
    (hid : ∀ op, (h op).id = op.id) :
    getOp ⟨gid, ops.map h, n⟩ i = (ops.find? (fun op => op.id = i)).map h := by
  unfold getOp
  simp only
  rw [List.find?_map]
  have hp : ((fun op => decide (op.id = i)) ∘ h) = (fun op : Op => decide (op.id = i)) := by
    funext op
    simp [Function.comp, hid]
  rw [hp]

theorem getOp_updateInputAt {g : Graph} {cid slot : Nat} {nt : Tensor}
    {i : Nat} :
    getOp (updateInputAt g cid slot nt) i =
      (getOp g i).map (fun op => if op.id = cid then setInputOp op slot nt
                                 else op) := by
  unfold updateInputAt
  rw [getOp_map_pres _ (by intro op; by_cases h : op.id = cid <;> simp [h])]
  rfl

theorem getOp_rewireControlAt {g : Graph} {did oldOp newOp i : Nat} :
    getOp (rewireControlAt g did oldOp newOp) i =
      (getOp g i).map (fun op => if op.id = did then rewireOp op oldOp newOp
                                 else op) := by
  unfold rewireControlAt
  rw [getOp_map_pres _ (by intro op; by_cases h : op.id = did <;> simp [h, rewireOp])]
  rfl

/-! ## Lemmas: the rewiring folds -/

theorem applyUpdateInputs_gid {g : Graph} {pairs : List (Nat × Nat)}
    {out : Tensor} : (applyUpdateInputs g pairs out).gid = g.gid := by
  induction pairs generalizing g with
  | nil => rfl
  | cons p ps ih => simpa [applyUpdateInputs] using ih (g := updateInputAt g p.1 p.2 out)

theorem applyUpdateInputs_nextId {g : Graph} {pairs : List (Nat × Nat)}
    {out : Tensor} : (applyUpdateInputs g pairs out).nextId = g.nextId := by
  induction pairs generalizing g with
  | nil => rfl
  | cons p ps ih => simpa [applyUpdateInputs] using ih (g := updateInputAt g p.1 p.2 out)

theorem applyControlRewires_gid {g : Graph} {deps : List Nat}
    {oldOp newOp : Nat} : (applyControlRewires g deps oldOp newOp).gid = g.gid := by
  induction deps generalizing g with
  | nil => rfl
  | cons d ds ih => simpa [applyControlRewires] using ih (g := rewireControlAt g d oldOp newOp)

theorem applyControlRewires_nextId {g : Graph} {deps : List Nat}
    {oldOp newOp : Nat} :
    (applyControlRewires g deps oldOp newOp).nextId = g.nextId := by
  induction deps generalizing g with
  | nil => rfl
  | cons d ds ih => simpa [applyControlRewires] using ih (g := rewireControlAt g d oldOp newOp)

theorem getOp_applyUpdateInputs_notmem {g : Graph} {pairs : List (Nat × Nat)}
    {out : Tensor} {i : Nat} (h : ∀ p ∈ pairs, p.1 ≠ i) :
    getOp (applyUpdateInputs g pairs out) i = getOp g i := by
  induction pairs generalizing g with
  | nil => rfl
  | cons p ps ih =>
    have step : getOp (updateInputAt g p.1 p.2 out) i = getOp g i := by
      rw [getOp_updateInputAt]
      cases hg : getOp g i with
      | none => rfl
      | some op =>
        have : op.id ≠ p.1 := by rw [getOp_id hg]; exact fun he => h p (by simp) he.symm
        simp [this]
    have := ih (g := updateInputAt g p.1 p.2 out) (fun q hq => h q (by simp [hq]))
    simpa [applyUpdateInputs] using this.trans step

theorem getOp_applyUpdateInputs_mem {g : Graph} {pairs : List (Nat × Nat)}
    {out : Tensor} {i slot : Nat}
    (hn : (pairs.map Prod.fst).Nodup) (hmem : (i, slot) ∈ pairs) :
    getOp (applyUpdateInputs g pairs out) i =
      (getOp g i).map (fun op => setInputOp op slot out) := by
  induction pairs generalizing g with
  | nil => simp at hmem
  | cons p ps ih =>
    simp only [List.map_cons, List.nodup_cons] at hn
    rcases List.mem_cons.mp hmem with h | h
    · subst h
      have hni : ∀ q ∈ ps, q.1 ≠ i := by
        intro q hq he
        exact hn.1 (List.mem_map.mpr ⟨q, hq, he⟩)
      have : getOp (applyUpdateInputs (updateInputAt g i slot out) ps out) i =
          getOp (updateInputAt g i slot out) i :=
        getOp_applyUpdateInputs_notmem hni
      rw [applyUpdateInputs, List.foldl_cons]
      rw [show (updateInputAt g (i, slot).1 (i, slot).2 out) = updateInputAt g i slot out from rfl]
      rw [show (ps.foldl (fun g p => updateInputAt g p.1 p.2 out) (updateInputAt g i slot out)) = applyUpdateInputs (updateInputAt g i slot out) ps out from rfl]
      rw [this, getOp_updateInputAt]
      cases hg : getOp g i with
      | none => rfl
      | some op =>
        have : op.id = i := getOp_id hg
        simp [this]
    · have hpi : p.1 ≠ i := by
        intro he
        exact hn.1 (he ▸ List.mem_map_of_mem Prod.fst h)
      have step : getOp (updateInputAt g p.1 p.2 out) i = getOp g i := by
        rw [getOp_updateInputAt]
        cases hg : getOp g i with
        | none => rfl
        | some op =>
          have : op.id ≠ p.1 := by rw [getOp_id hg]; exact fun he => hpi he.symm
          simp [this]
      have := ih (g := updateInputAt g p.1 p.2 out) hn.2 h
      rw [applyUpdateInputs, List.foldl_cons]
      rw [show (ps.foldl (fun g p => updateInputAt g p.1 p.2 out) (updateInputAt g p.1 p.2 out)) = applyUpdateInputs (updateInputAt g p.1 p.2 out) ps out from rfl]
      rw [this, step]

theorem getOp_applyControlRewires_notmem {g : Graph} {deps : List Nat}
    {oldOp newOp i : Nat} (h : i ∉ deps) :
    getOp (applyControlRewires g deps oldOp newOp) i = getOp g i := by
  induction deps generalizing g with
  | nil => rfl
  | cons d ds ih =>
    have hdi : d ≠ i := fun he => h (by simp [he])
    have step : getOp (rewireControlAt g d oldOp newOp) i = getOp g i := by
      rw [getOp_rewireControlAt]
      cases hg : getOp g i with
      | none => rfl
      | some op =>
        have : op.id ≠ d := by rw [getOp_id hg]; exact fun he => hdi he.symm
        simp [this]
    have := ih (g := rewireControlAt g d oldOp newOp) (fun hm => h (by simp [hm]))
    simpa [applyControlRewires] using this.trans step

theorem getOp_applyControlRewires_mem {g : Graph} {deps : List Nat}
    {oldOp newOp i : Nat} (hn : deps.Nodup) (hmem : i ∈ deps) :
    getOp (applyControlRewires g deps oldOp newOp) i =
      (getOp g i).map (fun op => rewireOp op oldOp newOp) := by
  induction deps generalizing g with
  | nil => simp at hmem
  | cons d ds ih =>
    simp only [List.nodup_cons] at hn
    rcases List.mem_cons.mp hmem with h | h
    · subst h
      have : getOp (applyControlRewires (rewireControlAt g i oldOp newOp) ds oldOp newOp) i =
          getOp (rewireControlAt g i oldOp newOp) i :=
        getOp_applyControlRewires_notmem hn.1
      rw [applyControlRewires, List.foldl_cons]
      rw [show (ds.foldl (fun g d => rewireControlAt g d oldOp newOp) (rewireControlAt g i oldOp newOp)) = applyControlRewires (rewireControlAt g i oldOp newOp) ds oldOp newOp from rfl]
      rw [this, getOp_rewireControlAt]
      cases hg : getOp g i with
      | none => rfl
      | some op =>
        have : op.id = i := getOp_id hg
        simp [this]
    · have hdi : d ≠ i := fun he => hn.1 (by rw [he]; exact h)
      have step : getOp (rewireControlAt g d oldOp newOp) i = getOp g i := by
        rw [getOp_rewireControlAt]
        cases hg : getOp g i with
        | none => rfl
        | some op =>
          have : op.id ≠ d := by rw [getOp_id hg]; exact fun he => hdi he.symm
          simp [this]
      have := ih (g := rewireControlAt g d oldOp newOp) hn.2 h
      rw [applyControlRewires, List.foldl_cons]
      rw [show (ds.foldl (fun g d => rewireControlAt g d oldOp newOp) (rewireControlAt g d oldOp newOp)) = applyControlRewires (rewireControlAt g d oldOp newOp) ds oldOp newOp from rfl]
      rw [this, step]

theorem getOp_applyUpdateInputs_ctrl {g : Graph} {pairs : List (Nat × Nat)}
    {out : Tensor} {i : Nat} :
    (getOp (applyUpdateInputs g pairs out) i).map
        (fun op => (op.control_inputs, op.nodeDefVersion)) =
      (getOp g i).map (fun op => (op.control_inputs, op.nodeDefVersion)) := by
  induction pairs generalizing g with
  | nil => rfl
  | cons p ps ih =>
    have step :
        (getOp (updateInputAt g p.1 p.2 out) i).map
            (fun op => (op.control_inputs, op.nodeDefVersion)) =
          (getOp g i).map (fun op => (op.control_inputs, op.nodeDefVersion)) := by
      rw [getOp_updateInputAt]
      cases hg : getOp g i with
      | none => rfl
      | some op => by_cases h : op.id = p.1 <;> simp [h, setInputOp]
    have := ih (g := updateInputAt g p.1 p.2 out)
    simpa [applyUpdateInputs] using this.trans step

theorem getOp_applyControlRewires_inputs {g : Graph} {deps : List Nat}
    {oldOp newOp i : Nat} :
    (getOp (applyControlRewires g deps oldOp newOp) i).map (fun op => op.inputs) =
      (getOp g i).map (fun op => op.inputs) := by
  induction deps generalizing g with
  | nil => rfl
  | cons d ds ih =>
    have step :
        (getOp (rewireControlAt g d oldOp newOp) i).map (fun op => op.inputs) =
          (getOp g i).map (fun op => op.inputs) := by
      rw [getOp_rewireControlAt]
      cases hg : getOp g i with
      | none => rfl
      | some op => by_cases h : op.id = d <;> simp [h, rewireOp]
    have := ih (g := rewireControlAt g d oldOp newOp)
    simpa [applyControlRewires] using this.trans step

/-! ## Lemmas: side-effect subgraph construction -/

theorem realizeOps_length {t : Tensor} {specs : List NewOpSpec} {start : Nat} :
    (realizeOps t specs start).length = specs.length := by
  induction specs generalizing start with
  | nil => rfl
  | cons sp sps ih => simp [realizeOps, ih]

theorem realizeOps_ids {t : Tensor} {specs : List NewOpSpec} {start : Nat} :
    (realizeOps t specs start).map (fun op => op.id) =
      List.range' start specs.length := by
  induction specs generalizing start with
  | nil => rfl
  | cons sp sps ih => simp [realizeOps, List.range'_succ, ih]

theorem realizeOps_append {t : Tensor} {l1 l2 : List NewOpSpec} {start : Nat} :
    realizeOps t (l1 ++ l2) start =
      realizeOps t l1 start ++ realizeOps t l2 (start + l1.length) := by
  induction l1 generalizing start with
  | nil => simp [realizeOps]
  | cons sp sps ih =>
    simp [realizeOps, ih]
    have : start + 1 + sps.length = start + (sps.length + 1) := by omega
    rw [this]

theorem applySideEffect_fold {t : Tensor} (specs : List NewOpSpec) :
    ∀ (acc : List Nat) (g : Graph),
      specs.foldl
        (fun r sp =>
          let g := r.2
          let op : Op := ⟨g.nextId, sp.inputs.map (TensorRef.resolve t),
                          sp.control_inputs, 0⟩
          (r.1 ++ [g.nextId], ⟨g.gid, g.ops ++ [op], g.nextId + 1⟩))
        (acc, g) =
      (acc ++ List.range' g.nextId specs.length,
       ⟨g.gid, g.ops ++ realizeOps t specs g.nextId,
        g.nextId + specs.length⟩) := by
  induction specs with
  | nil => intro acc g; simp [realizeOps]
  | cons sp sps ih =>
    intro acc g
    rw [List.foldl_cons]
    refine Eq.trans
      (ih (acc ++ [g.nextId])
        ⟨g.gid, g.ops ++ [⟨g.nextId, sp.inputs.map (TensorRef.resolve t),
                           sp.control_inputs, 0⟩], g.nextId + 1⟩) ?_
    simp [realizeOps, List.range'_succ]
    omega

theorem applySideEffect_eq {f : SideEffectFn} {t : Tensor} {g : Graph} :
    applySideEffect f t g =
      (List.range' g.nextId (f.build t).length,
       ⟨g.gid, g.ops ++ realizeOps t (f.build t) g.nextId,
        g.nextId + (f.build t).length⟩) := by
  unfold applySideEffect
  simpa using applySideEffect_fold (t := t) (f.build t) [] g

theorem flatSpecs_cons {s : SideEffectFn} {ses : List SideEffectFn}
    {t : Tensor} :
    flatSpecs (s :: ses) t = s.build t ++ flatSpecs ses t := by
  simp [flatSpecs]

theorem runSideEffects_fold {t : Tensor} (ses : List SideEffectFn) :
    ∀ (acc : List Nat) (g : Graph),
      ses.foldl
        (fun r s =>
          let a := applySideEffect s t r.2
          (r.1 ++ a.1, a.2))
        (acc, g) =
      (acc ++ List.range' g.nextId (flatSpecs ses t).length,
       ⟨g.gid, g.ops ++ realizeOps t (flatSpecs ses t) g.nextId,
        g.nextId + (flatSpecs ses t).length⟩) := by
  induction ses with
  | nil => intro acc g; simp [flatSpecs, realizeOps]
  | cons s ses ih =>
    intro acc g
    rw [List.foldl_cons]
    have ha : applySideEffect s t g =
        (List.range' g.nextId (s.build t).length,
         ⟨g.gid, g.ops ++ realizeOps t (s.build t) g.nextId,
          g.nextId + (s.build t).length⟩) := applySideEffect_eq
    refine Eq.trans
      (ih (acc ++ (applySideEffect s t g).1) (applySideEffect s t g).2) ?_
    rw [ha]
    simp only [flatSpecs_cons, List.length_append, realizeOps_append]
    rw [Prod.mk.injEq]
    refine ⟨?_, ?_⟩
    · rw [List.append_assoc]
      congr 1
      have hr := List.range'_append g.nextId (s.build t).length
        (flatSpecs ses t).length 1
      simp only [one_mul] at hr
      rw [hr, Nat.add_comm]
    · rw [Graph.mk.injEq]
      refine ⟨rfl, ?_, ?_⟩
      · rw [List.append_assoc]
      · omega

theorem runSideEffects_eq {ses : List SideEffectFn} {t : Tensor} {g : Graph} :
    runSideEffects ses t g =
      (List.range' g.nextId (flatSpecs ses t).length,
       ⟨g.gid, g.ops ++ realizeOps t (flatSpecs ses t) g.nextId,
        g.nextId + (flatSpecs ses t).length⟩) := by
  unfold runSideEffects
  simpa using runSideEffects_fold (t := t) ses [] g

/-! ## Lemmas: the control-output index -/

theorem lookupAssoc_nil {α : Type} {n : Nat} :
    lookupAssoc ([] : List (Nat × α)) n = none := rfl

theorem lookupAssoc_cons {α : Type} {k n : Nat} {v : α}
    {rest : List (Nat × α)} :
    lookupAssoc ((k, v) :: rest) n =
      if k = n then some v else lookupAssoc rest n := by
  by_cases h : k = n
  · unfold lookupAssoc
    rw [List.find?_cons_of_pos _ (by simp [h])]
    simp [h]
  · unfold lookupAssoc
    rw [List.find?_cons_of_neg _ (by simp [h])]
    simp [h]

theorem mem_addToMultimap {m : ControlOutputs} {k v n i : Nat} :
    i ∈ (lookupAssoc (addToMultimap m k v) n).getD [] ↔
      i ∈ (lookupAssoc m n).getD [] ∨ (n = k ∧ i = v) := by
  induction m with
  | nil =>
    by_cases h : k = n
    · subst h
      simp [addToMultimap, lookupAssoc_cons, lookupAssoc_nil, eq_comm]
    · simp only [addToMultimap, lookupAssoc_cons, lookupAssoc_nil, if_neg h]
      simp only [Option.getD_none, List.not_mem_nil, false_iff, false_or]
      intro hc
      exact absurd hc.1.symm h
  | cons p rest ih =>
    obtain ⟨k1, vs⟩ := p
    by_cases h1 : k1 = k
    · subst h1
      by_cases h2 : k1 = n
      · subst h2
        simp only [addToMultimap, eq_self_iff_true, if_true, lookupAssoc_cons,
                   Option.getD_some, true_and]
        by_cases h3 : v ∈ vs
        · rw [if_pos h3]
          constructor
          · intro hi; exact Or.inl hi
          · rintro (hi | hi)
            · exact hi
            · rw [hi]; exact h3
        · rw [if_neg h3]
          exact List.mem_append.trans (or_congr Iff.rfl List.mem_singleton)
      · simp only [addToMultimap, eq_self_iff_true, if_true, lookupAssoc_cons,
                    if_neg h2]
        constructor
        · intro hi
          exact Or.inl hi
        · rintro (hi | ⟨hn, hi⟩)
          · exact hi
          · exact absurd hn.symm h2
    · simp only [addToMultimap, if_neg h1]
      by_cases h2 : k1 = n
      · simp only [lookupAssoc_cons, if_pos h2]
        constructor
        · intro hi
          exact Or.inl hi
        · rintro (hi | ⟨hn, hi⟩)
          · exact hi
          · exact absurd (h2.trans hn) h1
      · simp only [lookupAssoc_cons, if_neg h2]
        exact ih

theorem mem_ciFold {cs : List Nat} {j n i : Nat} :
    ∀ {m : ControlOutputs},
      i ∈ (lookupAssoc (cs.foldl (fun m c => addToMultimap m c j) m) n).getD []
        ↔ i ∈ (lookupAssoc m n).getD [] ∨ (i = j ∧ n ∈ cs) := by
  induction cs with
  | nil => intro m; simp
  | cons c cs ih =>
    intro m
    rw [List.foldl_cons]
    rw [ih]
    rw [mem_addToMultimap]
    constructor
    · rintro (⟨h | ⟨hn, hi⟩⟩ | ⟨hi, hn⟩)
      · exact Or.inl h
      · exact Or.inr ⟨hi, by simp [hn]⟩
      · exact Or.inr ⟨hi, by simp [hn]⟩
    · rintro (h | ⟨hi, hn⟩)
      · exact Or.inl (Or.inl h)
      · rcases List.mem_cons.mp hn with h2 | h2
        · exact Or.inl (Or.inr ⟨h2, hi⟩)
        · exact Or.inr ⟨hi, h2⟩

theorem mem_calcFold {ops : List Op} {n i : Nat} :
    ∀ {m : ControlOutputs},
      i ∈ (lookupAssoc
            (ops.foldl
              (fun m op =>
                op.control_inputs.foldl (fun m c => addToMultimap m c op.id) m)
              m) n).getD []
        ↔ i ∈ (lookupAssoc m n).getD []
            ∨ ∃ op ∈ ops, op.id = i ∧ n ∈ op.control_inputs := by
  induction ops with
  | nil => intro m; simp
  | cons op ops ih =>
    intro m
    rw [List.foldl_cons]
    rw [ih]
    rw [mem_ciFold]
    constructor
    · rintro (⟨h | ⟨hi, hn⟩⟩ | ⟨op2, hop2, hid, hn⟩)
      · exact Or.inl h
      · exact Or.inr ⟨op, by simp, hi.symm, hn⟩
      · exact Or.inr ⟨op2, by simp [hop2], hid, hn⟩
    · rintro (h | ⟨op2, hop2, hid, hn⟩)
      · exact Or.inl (Or.inl h)
      · rcases List.mem_cons.mp hop2 with h2 | h2
        · subst h2
          exact Or.inl (Or.inr ⟨hid.symm, hn⟩)
        · exact Or.inr ⟨op2, h2, hid, hn⟩

/-- Membership in the computed reverse index: an op id is listed as a
control output of node n exactly when some op of the graph with that id
declares n as a control input. -/
theorem mem_calc_control_outputs {g : Graph} {n i : Nat} :
    i ∈ (lookupAssoc (calc_control_outputs g) n).getD [] ↔
      ∃ op ∈ g.ops, op.id = i ∧ n ∈ op.control_inputs := by
  unfold calc_control_outputs
  rw [mem_calcFold]
  simp [lookupAssoc]

theorem addToMultimap_nodup {m : ControlOutputs} {k v : Nat}
    (h : ∀ p ∈ m, p.2.Nodup) : ∀ p ∈ addToMultimap m k v, p.2.Nodup := by
  induction m with
  | nil =>
    intro p hp
    simp [addToMultimap] at hp
    simp [hp]
  | cons q rest ih =>
    obtain ⟨k1, vs⟩ := q
    intro p hp
    by_cases h1 : k1 = k
    · subst h1
      simp only [addToMultimap, if_pos rfl] at hp
      rcases List.mem_cons.mp hp with h2 | h2
      · subst h2
        by_cases h3 : v ∈ vs
        · simpa [h3] using h (k1, vs) (by simp)
        · have := h (k1, vs) (by simp)
          simp only at this
          simp [h3, List.nodup_append, this]
      · exact h p (by simp [h2])
    · simp only [addToMultimap, if_neg h1] at hp
      rcases List.mem_cons.mp hp with h2 | h2
      · subst h2
        exact h (k1, vs) (by simp)
      · exact ih (fun q hq => h q (by simp [hq])) p h2

theorem ciFold_nodup {cs : List Nat} {j : Nat} :
    ∀ {m : ControlOutputs}, (∀ p ∈ m, p.2.Nodup) →
      ∀ p ∈ cs.foldl (fun m c => addToMultimap m c j) m, p.2.Nodup := by
  induction cs with
  | nil => intro m h; exact h
  | cons c cs ih =>
    intro m h
    rw [List.foldl_cons]
    exact ih (addToMultimap_nodup h)

theorem calc_control_outputs_nodup {g : Graph} :
    ∀ p ∈ calc_control_outputs g, p.2.Nodup := by
  unfold calc_control_outputs
  generalize hm : ([] : ControlOutputs) = m
  have hbase : ∀ p ∈ m, p.2.Nodup := by rw [← hm]; simp
  clear hm
  induction g.ops generalizing m with
  | nil => exact hbase
  | cons op ops ih =>
    rw [List.foldl_cons]
    exact ih _ (ciFold_nodup hbase)

theorem lookup_calc_nodup {g : Graph} {n : Nat} :
    ((lookupAssoc (calc_control_outputs g) n).getD []).Nodup := by
  cases h : lookupAssoc (calc_control_outputs g) n with
  | none => exact List.nodup_nil
  | some vs =>
    unfold lookupAssoc at h
    cases hf : (calc_control_outputs g).find? (fun p => p.1 = n) with
    | none => rw [hf] at h; exact absurd h (by simp)
    | some p =>
      rw [hf] at h
      have hm := List.mem_of_find?_eq_some hf
      have hnd := calc_control_outputs_nodup p hm
      have hv : p.2 = vs := Option.some.inj h
      exact hv ▸ hnd

theorem get_control_outputs_miss {c : Cache} {g : Graph} {opId : Nat}
    (h : lookupAssoc c g.gid = none) :
    get_control_outputs c g opId =
      ((lookupAssoc (calc_control_outputs g) opId).getD [],
       (g.gid, calc_control_outputs g) :: c) := by
  simp [get_control_outputs, h]

theorem get_control_outputs_hit {c : Cache} {g : Graph} {opId : Nat}
    {co : ControlOutputs} (h : lookupAssoc c g.gid = some co) :
    get_control_outputs c g opId = ((lookupAssoc co opId).getD [], c) := by
  simp [get_control_outputs, h]

/-! ## Lemmas: well-formedness accessors -/

theorem graphWF_nodup {g : Graph} (h : graphWF g = true) :
    (g.ops.map (fun op => op.id)).Nodup := by
  unfold graphWF at h
  simp only [Bool.and_eq_true, decide_eq_true_eq] at h
  exact h.1

theorem graphWF_id_lt {g : Graph} (h : graphWF g = true) :
    ∀ op ∈ g.ops, op.id < g.nextId := by
  unfold graphWF at h
  simp only [Bool.and_eq_true, List.all_eq_true, decide_eq_true_eq] at h
  intro op hop
  exact (h.2 op hop).1.1

theorem graphWF_input_lt {g : Graph} (h : graphWF g = true) :
    ∀ op ∈ g.ops, ∀ u ∈ op.inputs, u.op < g.nextId := by
  unfold graphWF at h
  simp only [Bool.and_eq_true, List.all_eq_true, decide_eq_true_eq] at h
  intro op hop u hu
  exact (h.2 op hop).1.2 u hu

theorem graphWF_ci_lt {g : Graph} (h : graphWF g = true) :
    ∀ op ∈ g.ops, ∀ ci ∈ op.control_inputs, ci < g.nextId := by
  unfold graphWF at h
  simp only [Bool.and_eq_true, List.all_eq_true, decide_eq_true_eq] at h
  intro op hop ci hci
  exact (h.2 op hop).2 ci hci

/-! ## Lemmas: the consumer snapshot -/

theorem mem_snapshotOf {g : Graph} {t : Tensor} {i slot : Nat} :
    (i, slot) ∈ snapshotOf g t ↔
      ∃ op ∈ g.ops, op.id = i ∧ t ∈ op.inputs ∧ slot = op.inputs.indexOf t := by
  constructor
  · intro h
    simp only [snapshotOf, consumersOf, List.mem_map, List.mem_filter,
               decide_eq_true_eq] at h
    obtain ⟨op, ⟨hops, hmem⟩, heq⟩ := h
    rw [Prod.mk.injEq] at heq
    exact ⟨op, hops, heq.1, hmem, heq.2.symm⟩
  · rintro ⟨op, hops, hid, hmem, hslot⟩
    simp only [snapshotOf, consumersOf, List.mem_map, List.mem_filter,
               decide_eq_true_eq]
    exact ⟨op, ⟨hops, hmem⟩, by rw [Prod.mk.injEq]; exact ⟨hid, hslot.symm⟩⟩

theorem snapshot_fst_map {g : Graph} {t : Tensor} :
    (snapshotOf g t).map Prod.fst = (consumersOf g t).map (fun op => op.id) := by
  simp [snapshotOf, List.map_map, Function.comp]

theorem snapshot_fst_lt {g : Graph} {t : Tensor}
    (hb : ∀ op ∈ g.ops, op.id < g.nextId) :
    ∀ p ∈ snapshotOf g t, p.1 < g.nextId := by
  rintro ⟨i, slot⟩ hp
  obtain ⟨op, hops, hid, _, _⟩ := mem_snapshotOf.mp hp
  simpa [← hid] using hb op hops

theorem snapshot_fst_nodup {g : Graph} {t : Tensor}
    (hn : (g.ops.map (fun op => op.id)).Nodup) :
    ((snapshotOf g t).map Prod.fst).Nodup := by
  rw [snapshot_fst_map]
  exact List.Nodup.sublist
    (List.Sublist.map _ (List.filter_sublist g.ops)) hn

/-! ## Lemmas: the reported control dependents -/

theorem spliceDeps_fresh {c : Cache} {g : Graph} {opId : Nat}
    (hc : lookupAssoc c g.gid = none) :
    (get_control_outputs c g opId).1 =
      (lookupAssoc (calc_control_outputs g) opId).getD [] := by
  rw [get_control_outputs_miss hc]

theorem spliceDeps_fresh_mem {c : Cache} {g : Graph} {opId d : Nat}
    (hc : lookupAssoc c g.gid = none) :
    d ∈ (get_control_outputs c g opId).1 ↔
      ∃ op ∈ g.ops, op.id = d ∧ opId ∈ op.control_inputs := by
  rw [spliceDeps_fresh hc]
  exact mem_calc_control_outputs

theorem spliceDeps_fresh_nodup {c : Cache} {g : Graph} {opId : Nat}
    (hc : lookupAssoc c g.gid = none) :
    ((get_control_outputs c g opId).1).Nodup := by
  rw [spliceDeps_fresh hc]
  exact lookup_calc_nodup

theorem spliceDeps_fresh_lt {c : Cache} {g : Graph} {opId : Nat}
    (hc : lookupAssoc c g.gid = none)
    (hb : ∀ op ∈ g.ops, op.id < g.nextId) :
    ∀ d ∈ (get_control_outputs c g opId).1, d < g.nextId := by
  intro d hd
  obtain ⟨op, hops, hid, _⟩ := (spliceDeps_fresh_mem hc).mp hd
  simpa [← hid] using hb op hops

/-! ## Lemmas: the splice decomposition -/


theorem subscribeOne_eq {t : Tensor} {ses : List SideEffectFn} {c : Cache}
    {g : Graph} :
    subscribeOne t ses c g =
      (spliceOut g ses t, (get_control_outputs c g t.op).2,
       applyControlRewires
         (applyUpdateInputs (spliceMidGraph g ses t) (snapshotOf g t)
           (spliceOut g ses t))
         ((get_control_outputs c g t.op).1) t.op (spliceOutId g ses t)) := by
  simp only [subscribeOne, runSideEffects_eq, spliceMidGraph, spliceIdOp,
             spliceOut, spliceOutId, spliceCount]

theorem subscribeOne_fst {t : Tensor} {ses : List SideEffectFn} {c : Cache}
    {g : Graph} : (subscribeOne t ses c g).1 = spliceOut g ses t := by
  rw [subscribeOne_eq]

theorem subscribeOne_cache {t : Tensor} {ses : List SideEffectFn} {c : Cache}
    {g : Graph} :
    (subscribeOne t ses c g).2.1 = (get_control_outputs c g t.op).2 := by
  rw [subscribeOne_eq]

theorem subscribeOne_nextId {t : Tensor} {ses : List SideEffectFn} {c : Cache}
    {g : Graph} :
    (subscribeOne t ses c g).2.2.nextId = spliceOutId g ses t + 1 := by
  rw [subscribeOne_eq]
  simp only [applyControlRewires_nextId, applyUpdateInputs_nextId,
             spliceMidGraph]

theorem subscribeOne_gid {t : Tensor} {ses : List SideEffectFn} {c : Cache}
    {g : Graph} : (subscribeOne t ses c g).2.2.gid = g.gid := by
  rw [subscribeOne_eq]
  simp only [applyControlRewires_gid, applyUpdateInputs_gid, spliceMidGraph]

theorem getOp_mid_old {g : Graph} {ses : List SideEffectFn} {t : Tensor}
    {i : Nat} {op : Op} (h : getOp g i = some op) :
    getOp (spliceMidGraph g ses t) i = some op := by
  unfold spliceMidGraph
  unfold getOp at h ⊢
  simp only [List.find?_append, h, Option.or_some]

theorem getOp_mid_idOp {g : Graph} {ses : List SideEffectFn} {t : Tensor}
    (hid : ∀ op ∈ g.ops, op.id < g.nextId) :
    getOp (spliceMidGraph g ses t) (spliceOutId g ses t) =
      some (spliceIdOp g ses t) := by
  unfold spliceMidGraph getOp
  simp only [List.find?_append]
  have h1 : g.ops.find? (fun op => op.id = spliceOutId g ses t) = none := by
    rw [List.find?_eq_none]
    intro op hop
    have := hid op hop
    simp only [decide_eq_true_eq]
    unfold spliceOutId
    omega
  have h2 : (realizeOps t (flatSpecs ses t) g.nextId).find?
      (fun op => op.id = spliceOutId g ses t) = none := by
    rw [List.find?_eq_none]
    intro op hop
    have hmem : op.id ∈ (realizeOps t (flatSpecs ses t) g.nextId).map
        (fun op => op.id) := List.mem_map_of_mem _ hop
    rw [realizeOps_ids] at hmem
    rw [List.mem_range'] at hmem
    obtain ⟨j, hj, he⟩ := hmem
    simp only [decide_eq_true_eq]
    unfold spliceOutId spliceCount
    omega
  rw [h1, h2]
  simp [spliceIdOp]

theorem realizeOps_find? {t : Tensor} {specs : List NewOpSpec}
    {start k : Nat} (hk : k < specs.length) :
    (realizeOps t specs start).find? (fun op => op.id = start + k) =
      some ⟨start + k,
            (specs.get ⟨k, hk⟩).inputs.map (TensorRef.resolve t),
            (specs.get ⟨k, hk⟩).control_inputs, 0⟩ := by
  induction specs generalizing start k with
  | nil => simp at hk
  | cons sp sps ih =>
    cases k with
    | zero =>
      unfold realizeOps
      rw [List.find?_cons_of_pos _ (by simp)]
      simp
    | succ k =>
      unfold realizeOps
      rw [List.find?_cons_of_neg _ (by simp)]
      have hk2 : k < sps.length := by simpa using Nat.lt_of_succ_lt_succ hk
      have := @ih (start + 1) k hk2
      rw [show start + 1 + k = start + (k + 1) from by omega] at this
      rw [this]
      simp

theorem getOp_mid_sideOp {g : Graph} {ses : List SideEffectFn} {t : Tensor}
    {k : Nat} (hid : ∀ op ∈ g.ops, op.id < g.nextId)
    (hk : k < spliceCount ses t) :
    getOp (spliceMidGraph g ses t) (g.nextId + k) =
      some ⟨g.nextId + k,
            ((flatSpecs ses t).get ⟨k, hk⟩).inputs.map (TensorRef.resolve t),
            ((flatSpecs ses t).get ⟨k, hk⟩).control_inputs, 0⟩ := by
  unfold spliceMidGraph getOp
  simp only [List.find?_append]
  have h1 : g.ops.find? (fun op => op.id = g.nextId + k) = none := by
    rw [List.find?_eq_none]
    intro op hop
    have := hid op hop
    simp only [decide_eq_true_eq]
    omega
  rw [h1]
  rw [realizeOps_find? hk]
  simp

theorem subscribeOne_getOp_snapshot_inputs {t : Tensor}
    {ses : List SideEffectFn} {c : Cache} {g : Graph} {i slot : Nat}
    (hn : (g.ops.map (fun op => op.id)).Nodup)
    (hp : (i, slot) ∈ snapshotOf g t) :
    (getOp (subscribeOne t ses c g).2.2 i).map (fun op => op.inputs) =
      (getOp (spliceMidGraph g ses t) i).map
        (fun op => op.inputs.set slot (spliceOut g ses t)) := by
  rw [subscribeOne_eq]
  rw [getOp_applyControlRewires_inputs]
  rw [getOp_applyUpdateInputs_mem (snapshot_fst_nodup hn) hp]
  rw [Option.map_map]
  rfl

theorem subscribeOne_getOp_notsnapshot_inputs {t : Tensor}
    {ses : List SideEffectFn} {c : Cache} {g : Graph} {i : Nat}
    (hns : ∀ p ∈ snapshotOf g t, p.1 ≠ i) :
    (getOp (subscribeOne t ses c g).2.2 i).map (fun op => op.inputs) =
      (getOp (spliceMidGraph g ses t) i).map (fun op => op.inputs) := by
  rw [subscribeOne_eq]
  rw [getOp_applyControlRewires_inputs]
  rw [getOp_applyUpdateInputs_notmem hns]

theorem subscribeOne_getOp_dep_ctrl {t : Tensor} {ses : List SideEffectFn}
    {c : Cache} {g : Graph} {d : Nat}
    (hnd : ((get_control_outputs c g t.op).1).Nodup)
    (hd : d ∈ (get_control_outputs c g t.op).1) :
    (getOp (subscribeOne t ses c g).2.2 d).map
        (fun op => (op.control_inputs, op.nodeDefVersion)) =
      (getOp (spliceMidGraph g ses t) d).map
        (fun op => (op.control_inputs.erase t.op ++ [spliceOutId g ses t],
                    op.nodeDefVersion + 1)) := by
  rw [subscribeOne_eq]
  rw [getOp_applyControlRewires_mem hnd hd]
  rw [Option.map_map]
  rw [show ((fun op => (op.control_inputs, op.nodeDefVersion)) ∘
      (fun op => rewireOp op t.op (spliceOutId g ses t))) =
      ((fun pr => (pr.1.erase t.op ++ [spliceOutId g ses t], pr.2 + 1)) ∘
        (fun op : Op => (op.control_inputs, op.nodeDefVersion))) from rfl]
  rw [← Option.map_map]
  rw [getOp_applyUpdateInputs_ctrl]
  rw [Option.map_map]
  rfl

theorem subscribeOne_getOp_notdep_ctrl {t : Tensor} {ses : List SideEffectFn}
    {c : Cache} {g : Graph} {d : Nat}
    (hnd : d ∉ (get_control_outputs c g t.op).1) :
    (getOp (subscribeOne t ses c g).2.2 d).map
        (fun op => (op.control_inputs, op.nodeDefVersion)) =
      (getOp (spliceMidGraph g ses t) d).map
        (fun op => (op.control_inputs, op.nodeDefVersion)) := by
  rw [subscribeOne_eq]
  rw [getOp_applyControlRewires_notmem hnd]
  rw [getOp_applyUpdateInputs_ctrl]

theorem subscribeOne_getOp_untouched {t : Tensor} {ses : List SideEffectFn}
    {c : Cache} {g : Graph} {i : Nat}
    (hns : ∀ p ∈ snapshotOf g t, p.1 ≠ i)
    (hnd : i ∉ (get_control_outputs c g t.op).1) :
    getOp (subscribeOne t ses c g).2.2 i = getOp (spliceMidGraph g ses t) i := by
  rw [subscribeOne_eq]
  rw [getOp_applyControlRewires_notmem hnd]
  rw [getOp_applyUpdateInputs_notmem hns]

theorem map_id_pres {l : List Op} (h : Op → Op)
    (hid : ∀ op, (h op).id = op.id) :
    (l.map h).map (fun op => op.id) = l.map (fun op => op.id) := by
  rw [List.map_map]
  exact List.map_congr_left (fun op _ => hid op)

theorem applyUpdateInputs_ids {g : Graph} {pairs : List (Nat × Nat)}
    {out : Tensor} :
    (applyUpdateInputs g pairs out).ops.map (fun op => op.id) =
      g.ops.map (fun op => op.id) := by
  induction pairs generalizing g with
  | nil => rfl
  | cons p ps ih =>
    have step : (updateInputAt g p.1 p.2 out).ops.map (fun op => op.id) =
        g.ops.map (fun op => op.id) := by
      unfold updateInputAt
      exact map_id_pres _ (by intro op; by_cases h : op.id = p.1 <;> simp [h])
    have := ih (g := updateInputAt g p.1 p.2 out)
    simpa [applyUpdateInputs] using this.trans step

theorem applyControlRewires_ids {g : Graph} {deps : List Nat}
    {oldOp newOp : Nat} :
    (applyControlRewires g deps oldOp newOp).ops.map (fun op => op.id) =
      g.ops.map (fun op => op.id) := by
  induction deps generalizing g with
  | nil => rfl
  | cons d ds ih =>
    have step : (rewireControlAt g d oldOp newOp).ops.map (fun op => op.id) =
        g.ops.map (fun op => op.id) := by
      unfold rewireControlAt
      exact map_id_pres _ (by intro op; by_cases h : op.id = d <;> simp [h])
    have := ih (g := rewireControlAt g d oldOp newOp)
    simpa [applyControlRewires] using this.trans step

theorem subscribeOne_ids {t : Tensor} {ses : List SideEffectFn} {c : Cache}
    {g : Graph} :
    (subscribeOne t ses c g).2.2.ops.map (fun op => op.id) =
      (g.ops.map (fun op => op.id)
        ++ List.range' g.nextId (spliceCount ses t))
        ++ [spliceOutId g ses t] := by
  rw [subscribeOne_eq]
  rw [applyControlRewires_ids, applyUpdateInputs_ids]
  unfold spliceMidGraph
  simp [realizeOps_ids, spliceIdOp, spliceCount]

theorem subscribeOne_idsBound {t : Tensor} {ses : List SideEffectFn}
    {c : Cache} {g : Graph} (hb : ∀ op ∈ g.ops, op.id < g.nextId) :
    ∀ op ∈ (subscribeOne t ses c g).2.2.ops,
      op.id < (subscribeOne t ses c g).2.2.nextId := by
  intro op hop
  have hmem : op.id ∈ (subscribeOne t ses c g).2.2.ops.map (fun op => op.id) :=
    List.mem_map_of_mem _ hop
  rw [subscribeOne_ids] at hmem
  rw [subscribeOne_nextId]
  unfold spliceOutId
  simp only [List.mem_append, List.mem_singleton] at hmem
  rcases hmem with (hmem | hmem) | hmem
  · obtain ⟨op2, hop2, hid⟩ := List.mem_map.mp hmem
    have := hb op2 hop2
    omega
  · rw [List.mem_range'] at hmem
    obtain ⟨j, hj, he⟩ := hmem
    omega
  · unfold spliceOutId at hmem
    omega

theorem subscribeOne_idsNodup {t : Tensor} {ses : List SideEffectFn}
    {c : Cache} {g : Graph} (hb : ∀ op ∈ g.ops, op.id < g.nextId)
    (hn : (g.ops.map (fun op => op.id)).Nodup) :
    ((subscribeOne t ses c g).2.2.ops.map (fun op => op.id)).Nodup := by
  rw [subscribeOne_ids]
  rw [List.nodup_append]
  refine ⟨?_, by simp, ?_⟩
  · rw [List.nodup_append]
    refine ⟨hn, List.nodup_range' _ _, ?_⟩
    intro a ha hr
    obtain ⟨op2, hop2, hid⟩ := List.mem_map.mp ha
    rw [List.mem_range'] at hr
    obtain ⟨j, hj, he⟩ := hr
    have := hb op2 hop2
    omega
  · intro a ha hr
    rw [List.mem_singleton] at hr
    subst hr
    rw [List.mem_append] at ha
    unfold spliceOutId at ha
    rcases ha with ha | ha
    · obtain ⟨op2, hop2, hid⟩ := List.mem_map.mp ha
      have := hb op2 hop2
      omega
    · rw [List.mem_range'] at ha
      obtain ⟨j, hj, he⟩ := ha
      unfold spliceCount at he hj
      omega

/-! ## Lemmas: the structure traversal -/

theorem mapAccumLeaves_append {σ : Type} (f : Tensor → σ → Tensor × σ)
    (l1 l2 : List Tensor) (s : σ) :
    mapAccumLeaves f (l1 ++ l2) s =
      ((mapAccumLeaves f l1 s).1
         ++ (mapAccumLeaves f l2 (mapAccumLeaves f l1 s).2).1,
       (mapAccumLeaves f l2 (mapAccumLeaves f l1 s).2).2) := by
  induction l1 generalizing s with
  | nil => simp [mapAccumLeaves]
  | cons t ts ih =>
    simp only [List.cons_append, mapAccumLeaves, List.append_eq]
    rw [ih]

mutual
theorem recursive_apply_ok {σ : Type} (f : Tensor → σ → Tensor × σ) :
    ∀ (x : TStruct) (s : σ) (r : TStruct × σ),
      recursive_apply f x s = Except.ok r →
      shapeOf r.1 = shapeOf x ∧
        mapAccumLeaves f (leavesOf x) s = (leavesOf r.1, r.2)
  | .tensor t, s, r, h => by
    simp only [recursive_apply] at h
    cases h
    exact ⟨rfl, by simp [leavesOf, mapAccumLeaves]⟩
  | .tensorSub t, s, r, h => by
    simp only [recursive_apply] at h
    cases h
  | .pyOther v ty, s, r, h => by
    simp only [recursive_apply] at h
    cases h
  | .list xs, s, r, h => by
    simp only [recursive_apply] at h
    cases hl : recursive_applyList f xs s with
    | error e => rw [hl] at h; cases h
    | ok rl =>
      rw [hl] at h
      have ihl := recursive_applyList_ok f xs s rl hl
      cases h
      exact ⟨by simp [shapeOf, ihl.1], by simp [leavesOf, ihl.2]⟩
  | .tuple xs, s, r, h => by
    simp only [recursive_apply] at h
    cases hl : recursive_applyList f xs s with
    | error e => rw [hl] at h; cases h
    | ok rl =>
      rw [hl] at h
      have ihl := recursive_applyList_ok f xs s rl hl
      cases h
      exact ⟨by simp [shapeOf, ihl.1], by simp [leavesOf, ihl.2]⟩
  | .namedtuple n xs, s, r, h => by
    simp only [recursive_apply] at h
    cases hl : recursive_applyList f xs s with
    | error e => rw [hl] at h; cases h
    | ok rl =>
      rw [hl] at h
      have ihl := recursive_applyList_ok f xs s rl hl
      cases h
      exact ⟨by simp [shapeOf, ihl.1], by simp [leavesOf, ihl.2]⟩
  | .dict kvs, s, r, h => by
    simp only [recursive_apply] at h
    cases hl : recursive_applyDict f kvs s with
    | error e => rw [hl] at h; cases h
    | ok rl =>
      rw [hl] at h
      have ihl := recursive_applyDict_ok f kvs s rl hl
      cases h
      exact ⟨by simp [shapeOf, ihl.1], by simp [leavesOf, ihl.2]⟩

theorem recursive_applyList_ok {σ : Type} (f : Tensor → σ → Tensor × σ) :
    ∀ (xs : List TStruct) (s : σ) (r : List TStruct × σ),
      recursive_applyList f xs s = Except.ok r →
      shapeOfList r.1 = shapeOfList xs ∧
        mapAccumLeaves f (leavesOfList xs) s = (leavesOfList r.1, r.2)
  | [], s, r, h => by
    simp only [recursive_applyList] at h
    cases h
    exact ⟨rfl, by simp [leavesOfList, mapAccumLeaves]⟩
  | x :: xs, s, r, h => by
    simp only [recursive_applyList] at h
    cases h1 : recursive_apply f x s with
    | error e => rw [h1] at h; cases h
    | ok r1 =>
      rw [h1] at h
      replace h : Except.bind (recursive_applyList f xs r1.2)
          (fun r2 => Except.ok ((r1.1 :: r2.1 : List TStruct), r2.2)) =
          Except.ok r := h
      cases h2 : recursive_applyList f xs r1.2 with
      | error e => rw [h2] at h; cases h
      | ok r2 =>
        rw [h2] at h
        have ih1 := recursive_apply_ok f x s r1 h1
        have ih2 := recursive_applyList_ok f xs r1.2 r2 h2
        cases h
        constructor
        · simp [shapeOfList, ih1.1, ih2.1]
        · simp only [leavesOfList]
          rw [mapAccumLeaves_append]
          rw [ih1.2]
          simp only
          rw [ih2.2]

theorem recursive_applyDict_ok {σ : Type} (f : Tensor → σ → Tensor × σ) :
    ∀ (kvs : List (String × TStruct)) (s : σ)
      (r : List (String × TStruct) × σ),
      recursive_applyDict f kvs s = Except.ok r →
      shapeOfDict r.1 = shapeOfDict kvs ∧
        mapAccumLeaves f (leavesOfDict kvs) s = (leavesOfDict r.1, r.2)
  | [], s, r, h => by
    simp only [recursive_applyDict] at h
    cases h
    exact ⟨rfl, by simp [leavesOfDict, mapAccumLeaves]⟩
  | (k, v) :: kvs, s, r, h => by
    simp only [recursive_applyDict] at h
    cases h1 : recursive_apply f v s with
    | error e => rw [h1] at h; cases h
    | ok r1 =>
      rw [h1] at h
      replace h : Except.bind (recursive_applyDict f kvs r1.2)
          (fun r2 => Except.ok (((k, r1.1) :: r2.1 :
              List (String × TStruct)), r2.2)) = Except.ok r := h
      cases h2 : recursive_applyDict f kvs r1.2 with
      | error e => rw [h2] at h; cases h
      | ok r2 =>
        rw [h2] at h
        have ih1 := recursive_apply_ok f v s r1 h1
        have ih2 := recursive_applyDict_ok f kvs r1.2 r2 h2
        cases h
        constructor
        · simp [shapeOfDict, ih1.1, ih2.1]
        · simp only [leavesOfDict]
          rw [mapAccumLeaves_append]
          rw [ih1.2]
          simp only
          rw [ih2.2]
end

mutual
theorem recursive_apply_bad {σ : Type} (f : Tensor → σ → Tensor × σ) :
    ∀ (x : TStruct) (s : σ), hasBadLeaf x = true →
      ∃ p ∈ badLeaves x, recursive_apply f x s = .error (.typeError p.1 p.2)
  | .tensor t, s, hb => by simp [hasBadLeaf] at hb
  | .tensorSub t, s, hb => by
    exact ⟨(tensorRepr t, tensorSubclassName), by simp [badLeaves], rfl⟩
  | .pyOther v ty, s, hb => by
    exact ⟨(v, ty), by simp [badLeaves], rfl⟩
  | .list xs, s, hb => by
    have hbl : hasBadLeafList xs = true := by simpa [hasBadLeaf] using hb
    obtain ⟨p, hp, herr⟩ := recursive_applyList_bad f xs s hbl
    refine ⟨p, by simpa [badLeaves] using hp, ?_⟩
    simp only [recursive_apply]
    rw [herr]
    rfl
  | .tuple xs, s, hb => by
    have hbl : hasBadLeafList xs = true := by simpa [hasBadLeaf] using hb
    obtain ⟨p, hp, herr⟩ := recursive_applyList_bad f xs s hbl
    refine ⟨p, by simpa [badLeaves] using hp, ?_⟩
    simp only [recursive_apply]
    rw [herr]
    rfl
  | .namedtuple n xs, s, hb => by
    have hbl : hasBadLeafList xs = true := by simpa [hasBadLeaf] using hb
    obtain ⟨p, hp, herr⟩ := recursive_applyList_bad f xs s hbl
    refine ⟨p, by simpa [badLeaves] using hp, ?_⟩
    simp only [recursive_apply]
    rw [herr]
    rfl
  | .dict kvs, s, hb => by
    have hbl : hasBadLeafDict kvs = true := by simpa [hasBadLeaf] using hb
    obtain ⟨p, hp, herr⟩ := recursive_applyDict_bad f kvs s hbl
    refine ⟨p, by simpa [badLeaves] using hp, ?_⟩
    simp only [recursive_apply]
    rw [herr]
    rfl

theorem recursive_applyList_bad {σ : Type} (f : Tensor → σ → Tensor × σ) :
    ∀ (xs : List TStruct) (s : σ), hasBadLeafList xs = true →
      ∃ p ∈ badLeavesList xs,
        recursive_applyList f xs s = .error (.typeError p.1 p.2)
  | [], s, hb => by simp [hasBadLeafList] at hb
  | x :: xs, s, hb => by
    by_cases hx : hasBadLeaf x = true
    · obtain ⟨p, hp, herr⟩ := recursive_apply_bad f x s hx
      refine ⟨p, by simp [badLeavesList, hp], ?_⟩
      simp only [recursive_applyList]
      rw [herr]
      rfl
    · have hxs : hasBadLeafList xs = true := by
        simp only [hasBadLeafList, Bool.or_eq_true] at hb
        tauto
      cases h1 : recursive_apply f x s with
      | error e =>
        exfalso
        obtain ⟨r1, hr1⟩ := recursive_apply_good f x s
          (by simpa using hx)
        rw [hr1] at h1
        cases h1
      | ok r1 =>
        obtain ⟨p, hp, herr⟩ := recursive_applyList_bad f xs r1.2 hxs
        refine ⟨p, by simp [badLeavesList, hp], ?_⟩
        simp only [recursive_applyList]
        rw [h1]
        show Except.bind (recursive_applyList f xs r1.2)
          (fun r2 => Except.ok ((r1.1 :: r2.1 : List TStruct), r2.2)) =
          Except.error (.typeError p.1 p.2)
        rw [herr]
        rfl

theorem recursive_applyDict_bad {σ : Type} (f : Tensor → σ → Tensor × σ) :
    ∀ (kvs : List (String × TStruct)) (s : σ), hasBadLeafDict kvs = true →
      ∃ p ∈ badLeavesDict kvs,
        recursive_applyDict f kvs s = .error (.typeError p.1 p.2)
  | [], s, hb => by simp [hasBadLeafDict] at hb
  | (k, v) :: kvs, s, hb => by
    by_cases hv : hasBadLeaf v = true
    · obtain ⟨p, hp, herr⟩ := recursive_apply_bad f v s hv
      refine ⟨p, by simp [badLeavesDict, hp], ?_⟩
      simp only [recursive_applyDict]
      rw [herr]
      rfl
    · have hkvs : hasBadLeafDict kvs = true := by
        simp only [hasBadLeafDict, Bool.or_eq_true] at hb
        tauto
      cases h1 : recursive_apply f v s with
      | error e =>
        exfalso
        obtain ⟨r1, hr1⟩ := recursive_apply_good f v s
          (by simpa using hv)
        rw [hr1] at h1
        cases h1
      | ok r1 =>
        obtain ⟨p, hp, herr⟩ := recursive_applyDict_bad f kvs r1.2 hkvs
        refine ⟨p, by simp [badLeavesDict, hp], ?_⟩
        simp only [recursive_applyDict]
        rw [h1]
        show Except.bind (recursive_applyDict f kvs r1.2)
          (fun r2 => Except.ok (((k, r1.1) :: r2.1 :
              List (String × TStruct)), r2.2)) =
          Except.error (.typeError p.1 p.2)
        rw [herr]
        rfl

theorem recursive_apply_good {σ : Type} (f : Tensor → σ → Tensor × σ) :
    ∀ (x : TStruct) (s : σ), hasBadLeaf x = false →
      ∃ r, recursive_apply f x s = Except.ok r
  | .tensor t, s, hb => ⟨(.tensor (f t s).1, (f t s).2), rfl⟩
  | .tensorSub t, s, hb => by simp [hasBadLeaf] at hb
  | .pyOther v ty, s, hb => by simp [hasBadLeaf] at hb
  | .list xs, s, hb => by
    have hbl : hasBadLeafList xs = false := by simpa [hasBadLeaf] using hb
    obtain ⟨rl, hrl⟩ := recursive_applyList_good f xs s hbl
    exact ⟨(.list rl.1, rl.2), by simp only [recursive_apply]; rw [hrl]; rfl⟩
  | .tuple xs, s, hb => by
    have hbl : hasBadLeafList xs = false := by simpa [hasBadLeaf] using hb
    obtain ⟨rl, hrl⟩ := recursive_applyList_good f xs s hbl
    exact ⟨(.tuple rl.1, rl.2), by simp only [recursive_apply]; rw [hrl]; rfl⟩
  | .namedtuple n xs, s, hb => by
    have hbl : hasBadLeafList xs = false := by simpa [hasBadLeaf] using hb
    obtain ⟨rl, hrl⟩ := recursive_applyList_good f xs s hbl
    exact ⟨(.namedtuple n rl.1, rl.2),
           by simp only [recursive_apply]; rw [hrl]; rfl⟩
  | .dict kvs, s, hb => by
    have hbl : hasBadLeafDict kvs = false := by simpa [hasBadLeaf] using hb
    obtain ⟨rl, hrl⟩ := recursive_applyDict_good f kvs s hbl
    exact ⟨(.dict rl.1, rl.2), by simp only [recursive_apply]; rw [hrl]; rfl⟩

theorem recursive_applyList_good {σ : Type} (f : Tensor → σ → Tensor × σ) :
    ∀ (xs : List TStruct) (s : σ), hasBadLeafList xs = false →
      ∃ r, recursive_applyList f xs s = Except.ok r
  | [], s, hb => ⟨([], s), rfl⟩
  | x :: xs, s, hb => by
    simp only [hasBadLeafList, Bool.or_eq_false_iff] at hb
    obtain ⟨r1, hr1⟩ := recursive_apply_good f x s hb.1
    obtain ⟨r2, hr2⟩ := recursive_applyList_good f xs r1.2 hb.2
    refine ⟨(r1.1 :: r2.1, r2.2), ?_⟩
    simp only [recursive_applyList]
    rw [hr1]
    show Except.bind (recursive_applyList f xs r1.2)
      (fun r2 => Except.ok ((r1.1 :: r2.1 : List TStruct), r2.2)) =
      Except.ok (r1.1 :: r2.1, r2.2)
    rw [hr2]
    rfl

theorem recursive_applyDict_good {σ : Type} (f : Tensor → σ → Tensor × σ) :
    ∀ (kvs : List (String × TStruct)) (s : σ), hasBadLeafDict kvs = false →
      ∃ r, recursive_applyDict f kvs s = Except.ok r
  | [], s, hb => ⟨([], s), rfl⟩
  | (k, v) :: kvs, s, hb => by
    simp only [hasBadLeafDict, Bool.or_eq_false_iff] at hb
    obtain ⟨r1, hr1⟩ := recursive_apply_good f v s hb.1
    obtain ⟨r2, hr2⟩ := recursive_applyDict_good f kvs r1.2 hb.2
    refine ⟨((k, r1.1) :: r2.1, r2.2), ?_⟩
    simp only [recursive_applyDict]
    rw [hr1]
    show Except.bind (recursive_applyDict f kvs r1.2)
      (fun r2 => Except.ok (((k, r1.1) :: r2.1 :
          List (String × TStruct)), r2.2)) =
      Except.ok ((k, r1.1) :: r2.1, r2.2)
    rw [hr2]
    rfl
end

theorem subscribeOne_getOp_idOp {t : Tensor} {ses : List SideEffectFn}
    {g : Graph} (hb : ∀ op ∈ g.ops, op.id < g.nextId) :
    getOp (subscribeOne t ses [] g).2.2 (spliceOutId g ses t) =
      some (spliceIdOp g ses t) := by
  have hfresh : lookupAssoc ([] : Cache) g.gid = none := rfl
  have hdeps : ∀ d ∈ (get_control_outputs [] g t.op).1, d < g.nextId :=
    spliceDeps_fresh_lt hfresh hb
  have hns : ∀ p ∈ snapshotOf g t, p.1 ≠ spliceOutId g ses t := by
    intro p hp
    have := snapshot_fst_lt hb p hp
    unfold spliceOutId
    omega
  have hnd : spliceOutId g ses t ∉ (get_control_outputs [] g t.op).1 := by
    intro hmem
    have := hdeps _ hmem
    unfold spliceOutId at this
    omega
  rw [subscribeOne_getOp_untouched hns hnd]
  exact getOp_mid_idOp hb

/-! ## Claim theorems -/

/-- Claim C1: for every supported nested structure, subscribe returns a
structure of identical shape — same container kind, same length and
ordering for sequences and records, same keys for mappings — with every
leaf replaced by the result of the splicing transform applied in
traversal order. -/
theorem C1_subscribe_shape (tensors : TStruct) (se : SideEffectsArg)
    (g : Graph) (r : TStruct × Cache × Graph)
    (h : subscribe tensors se g = Except.ok r) :
    shapeOf r.1 = shapeOf tensors ∧
      leavesOf r.1 =
        (mapAccumLeaves (subscribeLeaf (normalizeSideEffects se))
          (leavesOf tensors) ([], g)).1 := by
  simp only [subscribe] at h
  cases hr : recursive_apply (subscribeLeaf (normalizeSideEffects se))
      tensors (([] : Cache), g) with
  | error e => rw [hr] at h; cases h
  | ok r0 =>
    rw [hr] at h
    have hok := recursive_apply_ok _ tensors ([], g) r0 hr
    cases h
    exact ⟨hok.1, by rw [hok.2]⟩

/-- Witness for C1: subscribing a two-leaf list-of-tuple structure over
the one-op graph preserves the shape and maps the leaves in order. -/
theorem C1_witness :
    shapeOf exC1Result.1 =
        shapeOf (.list [.tensor ⟨0, 0⟩, .tuple [.tensor ⟨0, 0⟩]]) ∧
      leavesOf exC1Result.1 =
        (mapAccumLeaves (subscribeLeaf (normalizeSideEffects (.single exSide)))
          (leavesOf (.list [.tensor ⟨0, 0⟩, .tuple [.tensor ⟨0, 0⟩]]))
          ([], exGraph1)).1 :=
  C1_subscribe_shape (.list [.tensor ⟨0, 0⟩, .tuple [.tensor ⟨0, 0⟩]])
    (.single exSide) exGraph1 exC1Result rfl

/-- Claim C5: the first get_control_outputs query for a graph performs
the full inversion scan of that graph and stores it keyed by the graph
identity; any later query against the same identity reuses the stored
inversion unchanged, so answers reflect the control edges at the moment
of the first query, not edges added afterwards. -/
theorem C5_cache_once (c : Cache) (g g2 : Graph) (opId opId2 : Nat)
    (hmiss : lookupAssoc c g.gid = none) (hsame : g2.gid = g.gid) :
    get_control_outputs c g opId =
        ((lookupAssoc (calc_control_outputs g) opId).getD [],
         (g.gid, calc_control_outputs g) :: c) ∧
      get_control_outputs ((g.gid, calc_control_outputs g) :: c) g2 opId2 =
        ((lookupAssoc (calc_control_outputs g) opId2).getD [],
         (g.gid, calc_control_outputs g) :: c) := by
  constructor
  · exact get_control_outputs_miss hmiss
  · refine get_control_outputs_hit ?_
    rw [lookupAssoc_cons, hsame]
    simp

/-- Witness for C5: after a first query on the three-op graph, a second
query against the grown graph (same identity, one extra dependent of
op 0) still answers [2] from the stale index, although a fresh scan of
the grown graph would answer [2, 3]. -/
theorem C5_witness :
    get_control_outputs [] exGraph 0 =
        ([2], [(0, calc_control_outputs exGraph)]) ∧
      get_control_outputs [(0, calc_control_outputs exGraph)] exGraph2 0 =
        ([2], [(0, calc_control_outputs exGraph)]) ∧
      (lookupAssoc (calc_control_outputs exGraph2) 0).getD [] = [2, 3] := by
  have h := C5_cache_once [] exGraph exGraph2 0 0 rfl rfl
  exact ⟨h.1.trans rfl, h.2.trans rfl, rfl⟩

/-- Claim C6: querying the dependents of a node nobody declares as a
control dependency returns the empty collection and never fails; for a
declared node it returns exactly the set of declaring nodes, free of
duplicates, with size equal to the number of distinct declaring nodes. -/
theorem C6_dependents (g : Graph) (n : Nat) (hwf : graphWF g = true) :
    ((∀ op ∈ g.ops, n ∉ op.control_inputs) →
        (get_control_outputs [] g n).1 = []) ∧
      (∀ i, i ∈ (get_control_outputs [] g n).1 ↔
        ∃ op ∈ g.ops, op.id = i ∧ n ∈ op.control_inputs) ∧
      ((get_control_outputs [] g n).1).Nodup ∧
      ((get_control_outputs [] g n).1).length =
        (g.ops.filter (fun op => n ∈ op.control_inputs)).length := by
  have hmem : ∀ i, i ∈ (get_control_outputs [] g n).1 ↔
      ∃ op ∈ g.ops, op.id = i ∧ n ∈ op.control_inputs :=
    fun i => spliceDeps_fresh_mem rfl
  have hnd : ((get_control_outputs [] g n).1).Nodup :=
    spliceDeps_fresh_nodup rfl
  refine ⟨?_, hmem, hnd, ?_⟩
  · intro hnone
    rw [List.eq_nil_iff_forall_not_mem]
    intro i hi
    obtain ⟨op, hop, _, hci⟩ := (hmem i).mp hi
    exact hnone op hop hci
  · have hmem2 : ∀ i, i ∈ (get_control_outputs [] g n).1 ↔
        i ∈ (g.ops.filter (fun op => n ∈ op.control_inputs)).map
          (fun op => op.id) := by
      intro i
      rw [hmem i]
      simp only [List.mem_map, List.mem_filter, decide_eq_true_eq]
      constructor
      · rintro ⟨op, hop, hid, hci⟩
        exact ⟨op, ⟨hop, hci⟩, hid⟩
      · rintro ⟨op, ⟨hop, hci⟩, hid⟩
        exact ⟨op, hop, hid, hci⟩
    have hnd2 : ((g.ops.filter (fun op => n ∈ op.control_inputs)).map
        (fun op => op.id)).Nodup :=
      List.Nodup.sublist (List.Sublist.map _ (List.filter_sublist g.ops))
        (graphWF_nodup hwf)
    have hperm := (List.perm_ext_iff_of_nodup hnd hnd2).mpr hmem2
    rw [hperm.length_eq, List.length_map]

/-- Witness for C6: in the three-op graph, node 5 has no dependents and
the query returns the empty list; node 0 has exactly one dependent. -/
theorem C6_witness :
    (get_control_outputs [] exGraph 5).1 = [] ∧
      (get_control_outputs [] exGraph 0).1.length =
        (exGraph.ops.filter (fun op => 0 ∈ op.control_inputs)).length ∧
      (get_control_outputs [] exGraph 0).1 = [2] :=
  ⟨(C6_dependents exGraph 5 (by decide)).1 (by decide),
   (C6_dependents exGraph 0 (by decide)).2.2.2, rfl⟩

/-- Claim C7: a structure containing a value of unsupported kind makes
the whole subscribe call fail with a type error naming the offending
value and its observed kind; an error is returned in place of any
partial structure. -/
theorem C7_unsupported_structure (tensors : TStruct) (se : SideEffectsArg)
    (g : Graph) (hb : hasBadLeaf tensors = true) :
    ∃ p ∈ badLeaves tensors,
      subscribe tensors se g = Except.error (.typeError p.1 p.2) := by
  obtain ⟨p, hp, herr⟩ :=
    recursive_apply_bad (subscribeLeaf (normalizeSideEffects se))
      tensors ([], g) hb
  refine ⟨p, hp, ?_⟩
  simp only [subscribe]
  rw [herr]
  rfl

/-- Witness for C7: a list containing the raw numeric literal 3 fails
with a TypeError naming the value 3 and its int type. -/
theorem C7_witness :
    subscribe exBadStruct (.several []) exGraph =
      Except.error (.typeError "3" "int") := by
  obtain ⟨p, hp, herr⟩ :=
    C7_unsupported_structure exBadStruct (.several []) exGraph rfl
  have hp2 : p = ("3", "int") := by
    rw [show badLeaves exBadStruct = [("3", "int")] from rfl] at hp
    simpa using hp
  rw [hp2] at herr
  exact herr

/-- Claim C8 counterexample: an empty supplied sequence of side-effect
functions is kept as-is by the normalization, so the normalized
sequence has length 0, not length at least 1 — and the call proceeds,
producing a pass-through gated on no dependencies at all. -/
theorem C8_counterexample :
    (normalizeSideEffects (.several [])).length = 0 ∧
      subscribe (.tensor ⟨0, 0⟩) (.several []) exGraph1 =
        Except.ok (.tensor ⟨1, 0⟩, [(0, [])],
          ⟨0, [⟨0, [], [], 0⟩, ⟨1, [⟨0, 0⟩], [], 0⟩], 2⟩) :=
  ⟨rfl, rfl⟩

/-- Claim C8 (amended): a single side-effect function is wrapped into a
one-element sequence and a supplied sequence is used as-is, so the
normalized sequence has length at least 1 exactly when the caller
supplies a single function or a non-empty sequence; the functions are
invoked in the supplied order on each leaf, their created ops appended
in that order with consecutive fresh ids, and their dependencies
collected in that order. -/
theorem C8_amended :
    (∀ f, normalizeSideEffects (.single f) = [f]) ∧
      (∀ fs, normalizeSideEffects (.several fs) = fs) ∧
      (∀ s ses t, flatSpecs (s :: ses) t = s.build t ++ flatSpecs ses t) ∧
      (∀ ses t g, runSideEffects ses t g =
        (List.range' g.nextId (flatSpecs ses t).length,
         ⟨g.gid, g.ops ++ realizeOps t (flatSpecs ses t) g.nextId,
          g.nextId + (flatSpecs ses t).length⟩)) :=
  ⟨fun _ => rfl, fun _ => rfl, fun _ _ _ => flatSpecs_cons,
   fun _ _ _ => runSideEffects_eq⟩

theorem not_mem_set_indexOf {l : List Tensor} {t v : Tensor}
    (hc : l.count t = 1) (hv : v ≠ t) :
    t ∉ l.set (l.indexOf t) v := by
  induction l with
  | nil => simp
  | cons a l ih =>
    by_cases h : a = t
    · subst h
      have hz : l.count a = 0 := by
        have := List.count_cons_self a l
        omega
      rw [List.indexOf_cons_self]
      simp only [List.set, List.mem_cons]
      push_neg
      exact ⟨fun he => hv he.symm, List.count_eq_zero.mp hz⟩
    · have hne : t ≠ a := fun he => h he.symm
      rw [List.indexOf_cons_ne _ h]
      simp only [List.set, List.mem_cons]
      push_neg
      have hc2 : l.count t = 1 := by
        have := List.count_cons_of_ne hne l
        omega
      exact ⟨hne, ih hc2⟩

/-- Claim C2 counterexample: op 1 of the example graph reads the
subscribed handle at both of its input slots; after the splice only its
first slot reads the pass-through (op 3) while its second slot still
reads the original handle, so a member of the consumer set does not
read the pass-through at each slot where it previously read the
handle. -/
theorem C2_counterexample :
    exConsumer ∈ exGraph.ops ∧ exTensor ∈ exConsumer.inputs ∧
      exConsumer.inputs = [⟨0, 0⟩, ⟨0, 0⟩] ∧
      (getOp (subscribeOne exTensor [] [] exGraph).2.2 1).map
          (fun o => o.inputs) =
        some [⟨3, 0⟩, ⟨0, 0⟩] ∧
      exTensor = ⟨0, 0⟩ :=
  ⟨by decide, by decide, rfl, rfl, rfl⟩

/-- Claim C2 (amended): every snapshotted consumer has its input
rewritten to the pass-through at the first slot where it read the
handle (later duplicate slots keep the original handle); a consumer
reading the handle at exactly one slot therefore no longer reads it at
all; ops that are not consumers keep their inputs unchanged; and the
only new reader the splice itself introduces for the handle is the
pass-through op. -/
theorem C2_amended (t : Tensor) (ses : List SideEffectFn) (c : Cache)
    (g : Graph) (hwf : graphWF g = true) (ht : t.op < g.nextId) :
    (∀ op ∈ g.ops, t ∈ op.inputs →
      (getOp (subscribeOne t ses c g).2.2 op.id).map (fun o => o.inputs) =
        some (op.inputs.set (op.inputs.indexOf t) (spliceOut g ses t))) ∧
      (∀ op ∈ g.ops, t ∈ op.inputs → op.inputs.count t = 1 →
        t ∉ op.inputs.set (op.inputs.indexOf t) (spliceOut g ses t)) ∧
      (∀ op ∈ g.ops, t ∉ op.inputs →
        (getOp (subscribeOne t ses c g).2.2 op.id).map (fun o => o.inputs) =
          some op.inputs) ∧
      (getOp (subscribeOne t ses c g).2.2 (spliceOutId g ses t)).map
          (fun o => o.inputs) = some [t] := by
  have hnodup := graphWF_nodup hwf
  have hb := graphWF_id_lt hwf
  refine ⟨?_, ?_, ?_, ?_⟩
  · intro op hop hmem
    have hp : (op.id, op.inputs.indexOf t) ∈ snapshotOf g t :=
      mem_snapshotOf.mpr ⟨op, hop, rfl, hmem, rfl⟩
    rw [subscribeOne_getOp_snapshot_inputs hnodup hp]
    rw [getOp_mid_old (getOp_of_mem_nodup hnodup hop)]
    rfl
  · intro op hop hmem hcount
    refine not_mem_set_indexOf hcount ?_
    intro he
    have : spliceOutId g ses t = t.op := congrArg Tensor.op he
    unfold spliceOutId at this
    omega
  · intro op hop hmem
    have hns : ∀ p ∈ snapshotOf g t, p.1 ≠ op.id := by
      rintro ⟨i, slot⟩ hp he
      obtain ⟨op2, hop2, hid, hmem2, _⟩ := mem_snapshotOf.mp hp
      have : op2 = op := getOp_eq_of_mem_nodup hnodup hop hop2 (by rw [hid]; exact he)
      exact hmem (this ▸ hmem2)
    rw [subscribeOne_getOp_notsnapshot_inputs hns]
    rw [getOp_mid_old (getOp_of_mem_nodup hnodup hop)]
    rfl
  · have hns : ∀ p ∈ snapshotOf g t, p.1 ≠ spliceOutId g ses t := by
      intro p hp
      have := snapshot_fst_lt hb p hp
      unfold spliceOutId
      omega
    rw [subscribeOne_getOp_notsnapshot_inputs hns]
    rw [getOp_mid_idOp hb]
    rfl

/-- Witness for C2 (amended) at the double-consumer example graph. -/
theorem C2_witness :
    (getOp (subscribeOne exTensor [exSide] [] exGraph).2.2 1).map
        (fun o => o.inputs) =
      some (exConsumer.inputs.set (exConsumer.inputs.indexOf exTensor)
        (spliceOut exGraph [exSide] exTensor)) :=
  (C2_amended exTensor [exSide] [] exGraph (by decide) (by decide)).1
    exConsumer (by decide) (by decide)

/-- Claim C3: every node reported by the index as control-dependent on
the handle owner has, after the splice, the owner removed from its
control inputs and the pass-through op added, and its serialized node
definition regenerated (version bump). -/
theorem C3_control_rewire (t : Tensor) (ses : List SideEffectFn)
    (g : Graph) (d : Nat) (op : Op)
    (hwf : graphWF g = true) (ht : t.op < g.nextId)
    (hd : d ∈ (get_control_outputs [] g t.op).1)
    (hop : getOp g d = some op) :
    t.op ∈ op.control_inputs ∧
      (getOp (subscribeOne t ses [] g).2.2 d).map
          (fun o => (o.control_inputs, o.nodeDefVersion)) =
        some (op.control_inputs.erase t.op ++ [spliceOutId g ses t],
              op.nodeDefVersion + 1) ∧
      spliceOutId g ses t ∈
        op.control_inputs.erase t.op ++ [spliceOutId g ses t] ∧
      (op.control_inputs.Nodup →
        t.op ∉ op.control_inputs.erase t.op ++ [spliceOutId g ses t]) := by
  have hnodup := graphWF_nodup hwf
  have hfresh : lookupAssoc ([] : Cache) g.gid = none := rfl
  obtain ⟨op2, hop2, hid2, hci2⟩ := (spliceDeps_fresh_mem hfresh).mp hd
  have heq : op2 = op := by
    have h1 := getOp_of_mem_nodup hnodup hop2
    rw [hid2] at h1
    rw [hop] at h1
    exact ((Option.some.injEq _ _).mp h1).symm
  subst heq
  refine ⟨hci2, ?_, by simp, ?_⟩
  · rw [subscribeOne_getOp_dep_ctrl (spliceDeps_fresh_nodup hfresh) hd]
    rw [getOp_mid_old hop]
    rfl
  · intro hnd
    simp only [List.mem_append, List.mem_singleton]
    push_neg
    refine ⟨hnd.not_mem_erase, ?_⟩
    unfold spliceOutId
    omega

/-- Witness for C3: the dependent op 2 of the example graph, after the
splice, control-depends on the pass-through op and its node definition
version is bumped. -/
theorem C3_witness :
    (getOp (subscribeOne exTensor [exSide] [] exGraph).2.2 2).map
        (fun o => (o.control_inputs, o.nodeDefVersion)) =
      some ([spliceOutId exGraph [exSide] exTensor], 1) := by
  have h := C3_control_rewire exTensor [exSide] exGraph 2 exDependent
    (by decide) (by decide) (by decide) rfl
  exact h.2.1.trans rfl

/-- Claim C4: the splicer snapshots the (consumer, slot) pairs from the
pre-splice graph before any node is created, and rewires exactly the
snapshot: the pass-through op and the side-effect ops created during
the splice keep exactly their as-built fields, and pre-existing ops
outside the snapshot keep their data inputs. -/
theorem C4_snapshot_isolation (t : Tensor) (ses : List SideEffectFn)
    (g : Graph) (hwf : graphWF g = true) :
    (∀ p ∈ snapshotOf g t,
      ∃ op ∈ g.ops, op.id = p.1 ∧ t ∈ op.inputs ∧ p.1 < g.nextId) ∧
      getOp (subscribeOne t ses [] g).2.2 (spliceOutId g ses t) =
        some (spliceIdOp g ses t) ∧
      (∀ k (hk : k < spliceCount ses t),
        getOp (subscribeOne t ses [] g).2.2 (g.nextId + k) =
          some ⟨g.nextId + k,
                ((flatSpecs ses t).get ⟨k, hk⟩).inputs.map
                  (TensorRef.resolve t),
                ((flatSpecs ses t).get ⟨k, hk⟩).control_inputs, 0⟩) ∧
      (∀ op ∈ g.ops, (∀ p ∈ snapshotOf g t, p.1 ≠ op.id) →
        (getOp (subscribeOne t ses [] g).2.2 op.id).map (fun o => o.inputs) =
          some op.inputs) := by
  have hnodup := graphWF_nodup hwf
  have hb := graphWF_id_lt hwf
  have hfresh : lookupAssoc ([] : Cache) g.gid = none := rfl
  have hdeps : ∀ d ∈ (get_control_outputs [] g t.op).1, d < g.nextId :=
    spliceDeps_fresh_lt hfresh hb
  refine ⟨?_, ?_, ?_, ?_⟩
  · rintro ⟨i, slot⟩ hp
    obtain ⟨op, hop, hid, hmem, _⟩ := mem_snapshotOf.mp hp
    exact ⟨op, hop, hid, hmem, by have := hb op hop; omega⟩
  · exact subscribeOne_getOp_idOp hb
  · intro k hk
    have hns : ∀ p ∈ snapshotOf g t, p.1 ≠ g.nextId + k := by
      intro p hp
      have := snapshot_fst_lt hb p hp
      omega
    have hnd : g.nextId + k ∉ (get_control_outputs [] g t.op).1 := by
      intro hmem
      have := hdeps _ hmem
      omega
    rw [subscribeOne_getOp_untouched hns hnd]
    exact getOp_mid_sideOp hb hk
  · intro op hop hns
    rw [subscribeOne_getOp_notsnapshot_inputs hns]
    rw [getOp_mid_old (getOp_of_mem_nodup hnodup hop)]
    rfl

/-- Witness for C4: splicing the example graph leaves the pass-through
op exactly as built. -/
theorem C4_witness :
    getOp (subscribeOne exTensor [exSide] [] exGraph).2.2
        (spliceOutId exGraph [exSide] exTensor) =
      some (spliceIdOp exGraph [exSide] exTensor) :=
  (C4_snapshot_isolation exTensor [exSide] exGraph (by decide)).2.1

/-- Claim C9: subscribe is not idempotent: splicing the pass-through
handle returned by a first splice produces a new, distinct pass-through
layer — a fresh identity op that consumes the first pass-through and is
gated on its own side-effect dependencies — while the first layer keeps
consuming the original handle gated on the first-layer dependencies, so
the two layers of side effects are chained. -/
theorem C9_not_idempotent (t : Tensor) (ses1 ses2 : List SideEffectFn)
    (g : Graph) (hwf : graphWF g = true) (ht : t.op < g.nextId) :
    (subscribeOne t ses1 [] g).1 = spliceOut g ses1 t ∧
      spliceOut g ses1 t ≠ t ∧
      (subscribeOne (spliceOut g ses1 t) ses2 []
          (subscribeOne t ses1 [] g).2.2).1 =
        spliceOut (subscribeOne t ses1 [] g).2.2 ses2 (spliceOut g ses1 t) ∧
      spliceOut (subscribeOne t ses1 [] g).2.2 ses2 (spliceOut g ses1 t) ≠
        spliceOut g ses1 t ∧
      getOp (subscribeOne (spliceOut g ses1 t) ses2 []
          (subscribeOne t ses1 [] g).2.2).2.2
        (spliceOutId (subscribeOne t ses1 [] g).2.2 ses2
          (spliceOut g ses1 t)) =
        some (spliceIdOp (subscribeOne t ses1 [] g).2.2 ses2
          (spliceOut g ses1 t)) ∧
      getOp (subscribeOne (spliceOut g ses1 t) ses2 []
          (subscribeOne t ses1 [] g).2.2).2.2 (spliceOut g ses1 t).op =
        some (spliceIdOp g ses1 t) := by
  have hb := graphWF_id_lt hwf
  have hnodup := graphWF_nodup hwf
  have hG1b : ∀ op ∈ (subscribeOne t ses1 [] g).2.2.ops,
      op.id < (subscribeOne t ses1 [] g).2.2.nextId :=
    subscribeOne_idsBound hb
  have hG1n : ((subscribeOne t ses1 [] g).2.2.ops.map
      (fun op => op.id)).Nodup := subscribeOne_idsNodup hb hnodup
  have hG1next : (subscribeOne t ses1 [] g).2.2.nextId =
      spliceOutId g ses1 t + 1 := subscribeOne_nextId
  have hIdOp1 : getOp (subscribeOne t ses1 [] g).2.2
      (spliceOutId g ses1 t) = some (spliceIdOp g ses1 t) :=
    subscribeOne_getOp_idOp hb
  have ht1op : (spliceOut g ses1 t).op = spliceOutId g ses1 t := rfl
  have hIdOp1b : getOp (subscribeOne t ses1 [] g).2.2
      (spliceOut g ses1 t).op = some (spliceIdOp g ses1 t) := hIdOp1
  refine ⟨subscribeOne_fst, ?_, subscribeOne_fst, ?_, ?_, ?_⟩
  · intro he
    have := congrArg Tensor.op he
    rw [ht1op] at this
    unfold spliceOutId at this
    omega
  · intro he
    have := congrArg Tensor.op he
    rw [show (spliceOut (subscribeOne t ses1 [] g).2.2 ses2
        (spliceOut g ses1 t)).op =
      spliceOutId (subscribeOne t ses1 [] g).2.2 ses2
        (spliceOut g ses1 t) from rfl] at this
    rw [ht1op] at this
    unfold spliceOutId at this
    rw [hG1next] at this
    unfold spliceOutId at this
    omega
  · exact subscribeOne_getOp_idOp hG1b
  · have hmem1 : spliceIdOp g ses1 t ∈ (subscribeOne t ses1 [] g).2.2.ops :=
      getOp_mem hIdOp1
    have hns2 : ∀ p ∈ snapshotOf (subscribeOne t ses1 [] g).2.2
        (spliceOut g ses1 t), p.1 ≠ (spliceOut g ses1 t).op := by
      rintro ⟨i, slot⟩ hp he
      obtain ⟨op2, hop2, hid2, hmem2, _⟩ := mem_snapshotOf.mp hp
      have heq : op2 = spliceIdOp g ses1 t := by
        refine getOp_eq_of_mem_nodup hG1n hmem1 hop2 ?_
        rw [hid2]
        simp only at he
        rw [he, ht1op]
        rfl
      rw [heq] at hmem2
      have : spliceOut g ses1 t ∈ [t] := hmem2
      rw [List.mem_singleton] at this
      have := congrArg Tensor.op this
      rw [ht1op] at this
      unfold spliceOutId at this
      omega
    have hnd2 : (spliceOut g ses1 t).op ∉
        (get_control_outputs [] (subscribeOne t ses1 [] g).2.2
          (spliceOut g ses1 t).op).1 := by
      intro hmem
      have hfresh2 : lookupAssoc ([] : Cache)
          (subscribeOne t ses1 [] g).2.2.gid = none := rfl
      obtain ⟨op2, hop2, hid2, hci2⟩ := (spliceDeps_fresh_mem hfresh2).mp hmem
      have heq : op2 = spliceIdOp g ses1 t := by
        refine getOp_eq_of_mem_nodup hG1n hmem1 hop2 ?_
        rw [hid2, ht1op]
        rfl
      rw [heq] at hci2
      have : (spliceOut g ses1 t).op ∈
          List.range' g.nextId (spliceCount ses1 t) := hci2
      rw [List.mem_range'] at this
      obtain ⟨j, hj, hje⟩ := this
      rw [ht1op] at hje
      unfold spliceOutId at hje
      omega
    rw [subscribeOne_getOp_untouched hns2 hnd2]
    exact getOp_mid_old hIdOp1b

/-- Witness for C9: two successive splices over the example graph
produce two distinct chained pass-through layers. -/
theorem C9_witness :
    (subscribeOne exTensor [exSide] [] exGraph).1 =
        spliceOut exGraph [exSide] exTensor ∧
      spliceOut exGraph [exSide] exTensor ≠ exTensor ∧
      (subscribeOne (spliceOut exGraph [exSide] exTensor) [exSide] []
          (subscribeOne exTensor [exSide] [] exGraph).2.2).1 =
        spliceOut (subscribeOne exTensor [exSide] [] exGraph).2.2 [exSide]
          (spliceOut exGraph [exSide] exTensor) ∧
      spliceOut (subscribeOne exTensor [exSide] [] exGraph).2.2 [exSide]
          (spliceOut exGraph [exSide] exTensor) ≠
        spliceOut exGraph [exSide] exTensor ∧
      getOp (subscribeOne (spliceOut exGraph [exSide] exTensor) [exSide] []
          (subscribeOne exTensor [exSide] [] exGraph).2.2).2.2
        (spliceOutId (subscribeOne exTensor [exSide] [] exGraph).2.2 [exSide]
          (spliceOut exGraph [exSide] exTensor)) =
        some (spliceIdOp (subscribeOne exTensor [exSide] [] exGraph).2.2
          [exSide] (spliceOut exGraph [exSide] exTensor)) ∧
      getOp (subscribeOne (spliceOut exGraph [exSide] exTensor) [exSide] []
          (subscribeOne exTensor [exSide] [] exGraph).2.2).2.2
        (spliceOut exGraph [exSide] exTensor).op =
        some (spliceIdOp exGraph [exSide] exTensor) :=
  C9_not_idempotent exTensor [exSide] [exSide] exGraph (by decide) (by decide)

/-- Claim C10: leaf recognition is by exact runtime type: a value whose
type is a strict subclass of the tensor type is not treated as a leaf
and is rejected with the type error naming it, while an exact tensor
leaf is transformed. -/
theorem C10_exact_type_dispatch {σ : Type} (f : Tensor → σ → Tensor × σ)
    (t : Tensor) (s : σ) :
    recursive_apply f (.tensorSub t) s =
        Except.error (.typeError (tensorRepr t) tensorSubclassName) ∧
      recursive_apply f (.tensor t) s =
        Except.ok (.tensor (f t s).1, (f t s).2) :=
  ⟨by simp [recursive_apply], by simp [recursive_apply]⟩

end Subscribe
